import Mathlib

/-! # UnorderedSet (src/unordered_set.h): a shallow embedding and its properties

The C++ class `UnorderedSet<KeyT>` is a separate-chaining hash set: a
`std::vector<std::list<KeyT>>` of chains plus a `size_t` element counter.

Modelling decisions.

* `buckets_` is a `List (List K)`, `size_` a `Nat`.  The hasher (`std::hash<KeyT>`,
  a stateless functor) is passed to every operation as a function `h : K → Nat`.
* Undefined behaviour is made explicit: `Bucket` computes `hasher_(x) % buckets_.size()`,
  a division by zero when there are no buckets, and the unchecked `buckets_[i]` is an
  out-of-range access when `i` is not an index.  Every operation that goes through them
  returns `Except Fault _`.
* `Rehash` and `Insert` call each other (`Rehash` re-inserts every element into a fresh
  set, `Insert` grows through `Rehash`).  The recursion is unfolded with a `fuel`
  counter for the nesting depth of rebuilds; running out of it is the fault
  `Fault.outOfFuel`.  The theorems below show that depth 2 is always enough.
* `size_t` arithmetic is modelled on unbounded naturals.  The three places where the code
  computes with sizes are `Size() + 1`, `BucketCount() * kRehashCoff` and `size_++` in
  `Insert`; they wrap only at `2^64`, far beyond the number of `std::list` objects a
  `std::vector` can hold, and the conversions to `long double` in the two load-factor
  tests are exact in that range, so both tests are comparisons of naturals
  (`kUltimateLoadFactor = 1`).  `size_--` in `Erase` is guarded by `Empty()` and never
  wraps.
-/

namespace UnorderedSetModel

/-- Ways in which a call can leave defined behaviour (or the unfolding budget). -/
inductive Fault where
  | divByZero
  | outOfRange
  | outOfFuel
  deriving DecidableEq, Repr

deriving instance DecidableEq for Except

/-- The fields `buckets_` and `size_` of the class. -/
structure UnorderedSet (K : Type) where
  buckets_ : List (List K)
  size_ : Nat
  deriving DecidableEq, Repr

/-- Constant `kRehashCoff`: the factor by which the bucket count grows. -/
def kRehashCoff : Nat := 2

/-- Constant `kUltimateLoadFactor`: the greatest load factor allowed. -/
def kUltimateLoadFactor : Nat := 1

section Operations

variable {K : Type} [DecidableEq K]

/-- Constructor `UnorderedSet() = default`: no buckets, no elements. -/
def UnorderedSet.default : UnorderedSet K :=
  { buckets_ := [], size_ := 0 }

/-- Constructor `explicit UnorderedSet(SzType count)`: `count` empty chains, no elements. -/
def UnorderedSet.sized (count : Nat) : UnorderedSet K :=
  { buckets_ := List.replicate count [], size_ := 0 }

/-- Method `Size()`: the counter `size_`. -/
def UnorderedSet.Size (s : UnorderedSet K) : Nat :=
  s.size_

/-- Method `Empty()`: `size_ == 0`. -/
def UnorderedSet.Empty (s : UnorderedSet K) : Bool :=
  s.size_ == 0

/-- Method `BucketCount()`: `buckets_.size()`. -/
def UnorderedSet.BucketCount (s : UnorderedSet K) : Nat :=
  s.buckets_.length

/-- Method `BucketSize(id)`: the length of chain `id`, and 0 when `id` is out of range. -/
def UnorderedSet.BucketSize (s : UnorderedSet K) (id : Nat) : Nat :=
  if id ≥ s.buckets_.length then 0 else (s.buckets_.getD id []).length

/-- Method `Bucket(element)`: `hasher_(element) % buckets_.size()`; dividing by zero is a fault. -/
def UnorderedSet.Bucket (h : K → Nat) (element : K) (s : UnorderedSet K) : Except Fault Nat :=
  if s.buckets_.length = 0 then .error .divByZero
  else .ok (h element % s.buckets_.length)

/-- Method `GetElementBucket(element)`: the chain `buckets_[Bucket(element)]`. -/
def UnorderedSet.GetElementBucket (h : K → Nat) (element : K) (s : UnorderedSet K) :
    Except Fault (List K) :=
  match s.Bucket h element with
  | .error e => .error e
  | .ok bucket_index =>
    match s.buckets_[bucket_index]? with
    | none => .error .outOfRange
    | some chain => .ok chain

/-- Writing `chain` through the reference returned by the non-const `GetElementBucket`. -/
def UnorderedSet.setElementBucket (h : K → Nat) (element : K) (chain : List K)
    (s : UnorderedSet K) : Except Fault (UnorderedSet K) :=
  match s.Bucket h element with
  | .error e => .error e
  | .ok bucket_index =>
    if bucket_index < s.buckets_.length then
      .ok { s with buckets_ := s.buckets_.set bucket_index chain }
    else .error .outOfRange

/-- Method `Clear()`: `*this = UnorderedSet()`. -/
def UnorderedSet.Clear (_s : UnorderedSet K) : UnorderedSet K :=
  UnorderedSet.default

/-- Method `Find(element)`: false on an empty set, otherwise a linear search of the chain. -/
def UnorderedSet.Find (h : K → Nat) (element : K) (s : UnorderedSet K) : Except Fault Bool :=
  if s.Empty then .ok false
  else
    match s.GetElementBucket h element with
    | .error e => .error e
    | .ok element_bucket => .ok (element_bucket.contains element)

/-- The body of `Insert(element)`, with the `Rehash` it calls passed in as `rehash`. -/
def UnorderedSet.insertWith (rehash : Nat → UnorderedSet K → Except Fault (UnorderedSet K))
    (h : K → Nat) (element : K) (s : UnorderedSet K) : Except Fault (UnorderedSet K) :=
  match s.Find h element with
  | .error e => .error e
  | .ok true => .ok s
  | .ok false =>
    match (if s.Size + 1 > s.BucketCount * kUltimateLoadFactor then
            rehash (max 1 (s.BucketCount * kRehashCoff)) s
          else .ok s) with
    | .error e => .error e
    | .ok s1 =>
      match s1.GetElementBucket h element with
      | .error e => .error e
      | .ok chain =>
        match s1.setElementBucket h element (chain ++ [element]) with
        | .error e => .error e
        | .ok s2 => .ok { s2 with size_ := s2.size_ + 1 }

/-- Method `Rehash(new_bucket_count)`, with `fuel` bounding the depth of nested calls (a call
with no fuel left is not run and reports `Fault.outOfFuel`): nothing happens when the count
is the current one or too small for the elements; otherwise every element of every chain,
in order, is inserted into a fresh set of `new_bucket_count` buckets, which then replaces
the set. -/
def UnorderedSet.Rehash (h : K → Nat) :
    Nat → Nat → UnorderedSet K → Except Fault (UnorderedSet K)
  | 0, _, _ => .error .outOfFuel
  | fuel + 1, new_bucket_count, s =>
    if new_bucket_count = s.BucketCount then .ok s
    else if s.Size > new_bucket_count * kUltimateLoadFactor then .ok s
    else
      s.buckets_.foldlM
        (fun tmp bucket =>
          bucket.foldlM
            (fun tmp element => UnorderedSet.insertWith (UnorderedSet.Rehash h fuel) h element tmp)
            tmp)
        (UnorderedSet.sized new_bucket_count)

/-- Method `Insert(element)`: nothing when the element is found; otherwise grow when one more
element would exceed the load factor, append to the element's chain, count it. -/
def UnorderedSet.Insert (fuel : Nat) (h : K → Nat) (element : K) (s : UnorderedSet K) :
    Except Fault (UnorderedSet K) :=
  UnorderedSet.insertWith (UnorderedSet.Rehash h fuel) h element s

/-- Method `Erase(element)`: nothing on an empty set; otherwise the first equal element of the
chain is removed when there is one, and `size_` is decremented in either case. -/
def UnorderedSet.Erase (h : K → Nat) (element : K) (s : UnorderedSet K) :
    Except Fault (UnorderedSet K) :=
  if s.Empty then .ok s
  else
    match s.GetElementBucket h element with
    | .error e => .error e
    | .ok element_bucket =>
      match (if element_bucket.contains element then
              s.setElementBucket h element (element_bucket.erase element)
            else .ok s) with
      | .error e => .error e
      | .ok s1 => .ok { s1 with size_ := s1.size_ - 1 }

/-- Method `Reserve(new_bucket_count)`: `Rehash` when the count is larger than the current one. -/
def UnorderedSet.Reserve (fuel : Nat) (h : K → Nat) (new_bucket_count : Nat)
    (s : UnorderedSet K) : Except Fault (UnorderedSet K) :=
  if new_bucket_count ≤ s.BucketCount then .ok s
  else UnorderedSet.Rehash h fuel new_bucket_count s

/-- Method `LoadFactor()`: 0 when `Size() == 0`, otherwise `Size() / BucketCount()` as a rational
(the `double` the code returns is this quotient rounded); `none` when the division is by
zero, where the `double` is not a number of elements per bucket. -/
def UnorderedSet.LoadFactor (s : UnorderedSet K) : Option ℚ :=
  if s.Size = 0 then some 0
  else if s.BucketCount = 0 then none
  else some ((s.Size : ℚ) / (s.BucketCount : ℚ))

/-- The range constructor: `Insert` of each element in turn into a default set. -/
def UnorderedSet.ofRange (fuel : Nat) (h : K → Nat) (xs : List K) :
    Except Fault (UnorderedSet K) :=
  xs.foldlM (fun s x => s.Insert fuel h x) UnorderedSet.default

/-- The mutating calls of the public interface. -/
inductive Op (K : Type) where
  | insert (k : K)
  | erase (k : K)
  | rehash (n : Nat)
  | reserve (n : Nat)
  | clear
  deriving DecidableEq, Repr

/-- One call. -/
def Op.apply (fuel : Nat) (h : K → Nat) (op : Op K) (s : UnorderedSet K) :
    Except Fault (UnorderedSet K) :=
  match op with
  | .insert k => s.Insert fuel h k
  | .erase k => s.Erase h k
  | .rehash n => UnorderedSet.Rehash h fuel n s
  | .reserve n => s.Reserve fuel h n
  | .clear => .ok s.Clear

/-- A sequence of calls, from left to right. -/
def runOps (fuel : Nat) (h : K → Nat) (ops : List (Op K)) (s : UnorderedSet K) :
    Except Fault (UnorderedSet K) :=
  ops.foldlM (fun s op => op.apply fuel h s) s

/-- All stored elements, chain after chain. -/
def UnorderedSet.elements (s : UnorderedSet K) : List K :=
  s.buckets_.flatten

/-- The total that `Size()` is compared with: the sum of `BucketSize(i)` for `i` in
`0..BucketCount()-1`. -/
def UnorderedSet.chainTotal (s : UnorderedSet K) : Nat :=
  ((List.range s.BucketCount).map s.BucketSize).sum

/-- Every element stored in chain `i` has `i = hash(x) mod BucketCount()`. -/
def Placed (h : K → Nat) (s : UnorderedSet K) : Prop :=
  ∀ i, i < s.BucketCount → ∀ x ∈ s.buckets_.getD i [], i = h x % s.BucketCount

/-- A consistent set: `Size()` is the total number of stored elements, no key is stored
twice (neither in one chain nor in two), every key is in the chain of its hash, and
`Size() ≤ BucketCount()`. -/
def Consistent (h : K → Nat) (s : UnorderedSet K) : Prop :=
  s.Size = s.chainTotal ∧ s.elements.Nodup ∧ Placed h s ∧ s.Size ≤ s.BucketCount

instance (h : K → Nat) (s : UnorderedSet K) : Decidable (Placed h s) := by
  unfold Placed
  infer_instance

instance (h : K → Nat) (s : UnorderedSet K) : Decidable (Consistent h s) := by
  unfold Consistent
  infer_instance

/-- The sets reachable from a default-constructed or sized-constructed set by a finite
sequence of `Insert`, `Erase`, `Rehash`, `Reserve` and `Clear` calls. -/
inductive Reachable (fuel : Nat) (h : K → Nat) : UnorderedSet K → Prop where
  | default : Reachable fuel h UnorderedSet.default
  | sized (count : Nat) : Reachable fuel h (UnorderedSet.sized count)
  | step (op : Op K) (s s1 : UnorderedSet K) :
      Reachable fuel h s → op.apply fuel h s = .ok s1 → Reachable fuel h s1

/-- The condition on a call in a sequence where `Erase` is only used on a set with
`Size() = 0` or with a key that `Find` reports present. -/
def Op.eraseGuard (h : K → Nat) (op : Op K) (s : UnorderedSet K) : Prop :=
  match op with
  | .erase k => s.Size = 0 ∨ s.Find h k = .ok true
  | _ => True

/-- The sets reachable by sequences of calls that all satisfy `Op.eraseGuard`. -/
inductive GuardedReachable (fuel : Nat) (h : K → Nat) : UnorderedSet K → Prop where
  | default : GuardedReachable fuel h UnorderedSet.default
  | sized (count : Nat) : GuardedReachable fuel h (UnorderedSet.sized count)
  | step (op : Op K) (s s1 : UnorderedSet K) :
      GuardedReachable fuel h s → op.eraseGuard h s → op.apply fuel h s = .ok s1 →
      GuardedReachable fuel h s1

/-- The chain that `GetElementBucket` returns when there is at least one bucket. -/
def UnorderedSet.chainOf (h : K → Nat) (k : K) (s : UnorderedSet K) : List K :=
  s.buckets_.getD (h k % s.buckets_.length) []

/-- The state after the last two statements of `Insert` (append to the chain of the
element, count it) when there is at least one bucket. -/
def UnorderedSet.push (h : K → Nat) (k : K) (s : UnorderedSet K) : UnorderedSet K :=
  { buckets_ := s.buckets_.set (h k % s.buckets_.length) (s.chainOf h k ++ [k]),
    size_ := s.size_ + 1 }

/-- The bucket count `B` of a set grown from empty to `i` elements: no bucket for `i = 0`,
otherwise the power of two with `i ≤ 2^e < 2*i`. -/
def GrownCount (i B : Nat) : Prop :=
  (i = 0 ∧ B = 0) ∨ ∃ e, B = 2 ^ e ∧ i ≤ 2 ^ e ∧ 2 ^ e < 2 * i

end Operations

/-! ## Concrete sets used as examples -/

/-- A full one-bucket set, where `Insert` of a new key goes through a rehash. -/
def fullSingleton : UnorderedSet Nat :=
  { buckets_ := [[1]], size_ := 1 }

/-- Four buckets holding 1 and 2 (identity hash). -/
def twoOfFour : UnorderedSet Nat :=
  { buckets_ := [[], [1], [2], []], size_ := 2 }

/-- The state of `UnorderedSet(4)` after `Insert(1)`, `Erase(2)`, `Insert(1)` (identity
hash): the key 1 is stored twice. -/
def storedTwice : UnorderedSet Nat :=
  { buckets_ := [[], [1, 1], [], []], size_ := 1 }

/-- The state `storedTwice` after a further `Insert(2)`. -/
def storedTwiceAndTwo : UnorderedSet Nat :=
  { buckets_ := [[], [1, 1], [2], []], size_ := 2 }

/-- The state of `UnorderedSet(1)` after `Insert(1)`, `Erase(7)`, `Insert(2)`, `Insert(3)`
(identity hash): three counted elements in two buckets. -/
def overfull : UnorderedSet Nat :=
  { buckets_ := [[2], [1, 3]], size_ := 3 }

set_option linter.unusedSectionVars false

/-! ## Basic facts about the operations -/

section Basics

variable {K : Type} [DecidableEq K]

theorem getElementBucket_ok (h : K → Nat) (k : K) (s : UnorderedSet K)
    (hb : s.buckets_.length ≠ 0) : s.GetElementBucket h k = .ok (s.chainOf h k) := by
  have hlt : h k % s.buckets_.length < s.buckets_.length :=
    Nat.mod_lt _ (Nat.pos_of_ne_zero hb)
  simp [UnorderedSet.GetElementBucket, UnorderedSet.Bucket, hb, UnorderedSet.chainOf,
    List.getD_eq_getElem?_getD, List.getElem?_eq_getElem hlt]

theorem setElementBucket_ok (h : K → Nat) (k : K) (c : List K) (s : UnorderedSet K)
    (hb : s.buckets_.length ≠ 0) :
    s.setElementBucket h k c
      = .ok { s with buckets_ := s.buckets_.set (h k % s.buckets_.length) c } := by
  have hlt : h k % s.buckets_.length < s.buckets_.length :=
    Nat.mod_lt _ (Nat.pos_of_ne_zero hb)
  simp [UnorderedSet.setElementBucket, UnorderedSet.Bucket, hb, hlt]

theorem find_of_size_zero (h : K → Nat) (k : K) (s : UnorderedSet K) (hs : s.size_ = 0) :
    s.Find h k = .ok false := by
  simp [UnorderedSet.Find, UnorderedSet.Empty, hs]

theorem find_of_buckets (h : K → Nat) (k : K) (s : UnorderedSet K)
    (hs : s.size_ ≠ 0) (hb : s.buckets_.length ≠ 0) :
    s.Find h k = .ok (decide (k ∈ s.chainOf h k)) := by
  simp [UnorderedSet.Find, UnorderedSet.Empty, hs, getElementBucket_ok h k s hb]

theorem chainTotal_eq_length (s : UnorderedSet K) : s.chainTotal = s.elements.length := by
  unfold UnorderedSet.chainTotal UnorderedSet.elements UnorderedSet.BucketCount
  rw [List.length_flatten]
  congr 1
  apply List.ext_getElem
  · simp
  · intro i h1 h2
    simp at h1
    simp [UnorderedSet.BucketSize, h1, List.getD_eq_getElem?_getD, List.getElem?_eq_getElem h1]

theorem flatten_set_perm (l : List (List K)) (i : Nat) (c c1 : List K) (x : K)
    (hi : l[i]? = some c) (hp : c1.Perm (x :: c)) :
    (l.set i c1).flatten.Perm (x :: l.flatten) := by
  induction l generalizing i with
  | nil => simp at hi
  | cons a t ih =>
    cases i with
    | zero =>
      simp at hi
      subst hi
      simpa using hp.append_right t.flatten
    | succ i =>
      simp at hi
      have h1 := ih i hi
      simp only [List.set_cons_succ, List.flatten_cons]
      exact (h1.append_left a).trans List.perm_middle

theorem getD_set_eq (l : List (List K)) (i j : Nat) (c : List K) (hi : i < l.length) :
    (l.set i c).getD j [] = if i = j then c else l.getD j [] := by
  simp only [List.getD_eq_getElem?_getD, List.getElem?_set, hi, if_true]
  split <;> simp

theorem chainOf_eq_of_getElem? (h : K → Nat) (k : K) (s : UnorderedSet K)
    (hb : s.buckets_.length ≠ 0) :
    s.buckets_[h k % s.buckets_.length]? = some (s.chainOf h k) := by
  have hlt : h k % s.buckets_.length < s.buckets_.length :=
    Nat.mod_lt _ (Nat.pos_of_ne_zero hb)
  simp [UnorderedSet.chainOf, List.getD_eq_getElem?_getD, List.getElem?_eq_getElem hlt]

theorem mem_elements_iff_of_placed (h : K → Nat) (k : K) (s : UnorderedSet K)
    (hp : Placed h s) :
    k ∈ s.elements ↔ s.buckets_.length ≠ 0 ∧ k ∈ s.chainOf h k := by
  constructor
  · intro hk
    obtain ⟨c, hc, hkc⟩ := List.mem_flatten.mp hk
    obtain ⟨i, hi, rfl⟩ := List.mem_iff_getElem.mp hc
    have hb : s.buckets_.length ≠ 0 := by omega
    refine ⟨hb, ?_⟩
    have := hp i hi k (by simpa [List.getD_eq_getElem?_getD, List.getElem?_eq_getElem hi] using hkc)
    simp only [UnorderedSet.BucketCount] at this
    simpa [UnorderedSet.chainOf, ← this, List.getD_eq_getElem?_getD,
      List.getElem?_eq_getElem hi] using hkc
  · rintro ⟨hb, hk⟩
    have h1 := chainOf_eq_of_getElem? h k s hb
    exact List.mem_flatten.mpr ⟨_, List.getElem?_mem h1, hk⟩

theorem elements_eq_nil_of_consistent (h : K → Nat) (s : UnorderedSet K)
    (hc : Consistent h s) (hs : s.size_ = 0) : s.elements = [] := by
  have h1 := hc.1
  rw [chainTotal_eq_length] at h1
  simp only [UnorderedSet.Size] at h1
  exact List.length_eq_zero.mp (by omega)

theorem find_of_consistent (h : K → Nat) (k : K) (s : UnorderedSet K)
    (hc : Consistent h s) : s.Find h k = .ok (decide (k ∈ s.elements)) := by
  by_cases hs : s.size_ = 0
  · rw [find_of_size_zero h k s hs, elements_eq_nil_of_consistent h s hc hs]
    simp
  · have hb : s.buckets_.length ≠ 0 := by
      have := hc.2.2.2
      simp only [UnorderedSet.Size, UnorderedSet.BucketCount] at this
      omega
    rw [find_of_buckets h k s hs hb]
    congr 1
    simp [mem_elements_iff_of_placed h k s hc.2.2.1, hb]

theorem insertWith_of_found (r : Nat → UnorderedSet K → Except Fault (UnorderedSet K))
    (h : K → Nat) (k : K) (s : UnorderedSet K) (hf : s.Find h k = .ok true) :
    s.insertWith r h k = .ok s := by
  simp [UnorderedSet.insertWith, hf]

theorem insertWith_of_room (r : Nat → UnorderedSet K → Except Fault (UnorderedSet K))
    (h : K → Nat) (k : K) (s : UnorderedSet K) (hf : s.Find h k = .ok false)
    (hr : s.size_ + 1 ≤ s.buckets_.length) :
    s.insertWith r h k = .ok (s.push h k) := by
  have hb : s.buckets_.length ≠ 0 := by omega
  have hn : ¬ (s.buckets_.length < s.size_ + 1) := by omega
  simp [UnorderedSet.insertWith, hf, UnorderedSet.Size, UnorderedSet.BucketCount,
    kUltimateLoadFactor, hn, getElementBucket_ok h k s hb, setElementBucket_ok h k _ s hb,
    UnorderedSet.push]

theorem insertWith_of_grow (r : Nat → UnorderedSet K → Except Fault (UnorderedSet K))
    (h : K → Nat) (k : K) (s s1 : UnorderedSet K) (hf : s.Find h k = .ok false)
    (hr : s.buckets_.length < s.size_ + 1)
    (h1 : r (max 1 (s.buckets_.length * 2)) s = .ok s1) (hb : s1.buckets_.length ≠ 0) :
    s.insertWith r h k = .ok (s1.push h k) := by
  simp [UnorderedSet.insertWith, hf, UnorderedSet.Size, UnorderedSet.BucketCount,
    kUltimateLoadFactor, kRehashCoff, hr, h1, getElementBucket_ok h k s1 hb,
    setElementBucket_ok h k _ s1 hb, UnorderedSet.push]

theorem push_length (h : K → Nat) (k : K) (s : UnorderedSet K) :
    (s.push h k).buckets_.length = s.buckets_.length := by
  simp [UnorderedSet.push]

theorem push_elements_perm (h : K → Nat) (k : K) (s : UnorderedSet K)
    (hb : s.buckets_.length ≠ 0) : (s.push h k).elements.Perm (k :: s.elements) := by
  unfold UnorderedSet.push UnorderedSet.elements
  exact flatten_set_perm _ _ _ _ k (chainOf_eq_of_getElem? h k s hb)
    (List.perm_append_singleton k _)

theorem push_placed (h : K → Nat) (k : K) (s : UnorderedSet K)
    (hb : s.buckets_.length ≠ 0) (hp : Placed h s) : Placed h (s.push h k) := by
  have hlt : h k % s.buckets_.length < s.buckets_.length :=
    Nat.mod_lt _ (Nat.pos_of_ne_zero hb)
  intro i hi x hx
  simp only [UnorderedSet.BucketCount, push_length] at hi ⊢
  simp only [UnorderedSet.push, getD_set_eq _ _ _ _ hlt] at hx
  split at hx
  · rename_i heq
    rcases List.mem_append.mp hx with hx | hx
    · exact hp i hi x (by rw [← heq]; exact hx)
    · simp at hx
      rw [hx, ← heq]
  · exact hp i hi x hx

theorem push_consistent (h : K → Nat) (k : K) (s : UnorderedSet K)
    (hc : Consistent h s) (hk : k ∉ s.elements) (hr : s.size_ + 1 ≤ s.buckets_.length) :
    Consistent h (s.push h k) := by
  have hb : s.buckets_.length ≠ 0 := by omega
  have hperm := push_elements_perm h k s hb
  obtain ⟨h1, h2, h3, _⟩ := hc
  rw [chainTotal_eq_length] at h1
  refine ⟨?_, ?_, push_placed h k s hb h3, ?_⟩
  · rw [chainTotal_eq_length, hperm.length_eq]
    simp only [UnorderedSet.Size] at h1
    simp [UnorderedSet.Size, UnorderedSet.push, h1]
  · exact hperm.nodup_iff.mpr (List.nodup_cons.mpr ⟨hk, h2⟩)
  · simp only [UnorderedSet.Size, UnorderedSet.BucketCount, push_length]
    simpa [UnorderedSet.push] using hr

end Basics

/-! ## Rebuilding: `Rehash` and the `Insert` calls it makes -/

section Rebuild

variable {K : Type} [DecidableEq K]

theorem foldlM_flatten {S : Type} (f : S → K → Except Fault S) (l : List (List K)) (init : S) :
    l.foldlM (fun tmp b => b.foldlM f tmp) init = l.flatten.foldlM f init := by
  induction l generalizing init with
  | nil => simp
  | cons a t ih =>
    simp only [List.foldlM_cons, List.flatten_cons, List.foldlM_append]
    congr 1
    funext x
    exact ih x

theorem rehash_accepted (h : K → Nat) (fuel n : Nat) (s : UnorderedSet K)
    (h1 : n ≠ s.buckets_.length) (h2 : s.size_ ≤ n) :
    UnorderedSet.Rehash h (fuel + 1) n s
      = s.elements.foldlM (fun tmp e => tmp.Insert fuel h e) (UnorderedSet.sized n) := by
  have h3 : ¬ (n < s.size_) := by omega
  simp only [UnorderedSet.Rehash, UnorderedSet.BucketCount, UnorderedSet.Size,
    kUltimateLoadFactor, Nat.mul_one, h1, if_false, gt_iff_lt, h3]
  rw [foldlM_flatten]
  rfl

theorem rehash_ignored (h : K → Nat) (fuel n : Nat) (s : UnorderedSet K)
    (h1 : n = s.buckets_.length ∨ n < s.size_) :
    UnorderedSet.Rehash h (fuel + 1) n s = .ok s := by
  simp only [UnorderedSet.Rehash, UnorderedSet.BucketCount, UnorderedSet.Size,
    kUltimateLoadFactor, Nat.mul_one, gt_iff_lt]
  rcases h1 with h1 | h1
  · simp [h1]
  · simp [h1]

theorem sized_elements (n : Nat) : (UnorderedSet.sized n : UnorderedSet K).elements = [] := by
  simp [UnorderedSet.sized, UnorderedSet.elements, List.flatten_eq_nil_iff]

theorem sized_consistent (h : K → Nat) (n : Nat) :
    Consistent h (UnorderedSet.sized n : UnorderedSet K) := by
  refine ⟨?_, ?_, ?_, ?_⟩
  · rw [chainTotal_eq_length, sized_elements]
    rfl
  · rw [sized_elements]
    exact List.nodup_nil
  · intro i hi x hx
    simp [UnorderedSet.sized, List.getD_eq_getElem?_getD, List.getElem?_replicate] at hx
    split at hx <;> simp at hx
  · simp [UnorderedSet.sized, UnorderedSet.Size]

theorem default_eq_sized : (UnorderedSet.default : UnorderedSet K) = UnorderedSet.sized 0 := by
  rfl

theorem size_eq_of_consistent (h : K → Nat) (s : UnorderedSet K) (hc : Consistent h s) :
    s.size_ = s.elements.length := by
  have := hc.1
  rwa [chainTotal_eq_length] at this

theorem size_eq_of_same_elements (h : K → Nat) (s t : UnorderedSet K)
    (hs : Consistent h s) (ht : Consistent h t)
    (hm : ∀ j, j ∈ t.elements ↔ j ∈ s.elements) : t.size_ = s.size_ := by
  rw [size_eq_of_consistent h s hs, size_eq_of_consistent h t ht]
  exact ((List.perm_ext_iff_of_nodup ht.2.1 hs.2.1).mpr hm).length_eq

theorem insertWith_consistent_room (r : Nat → UnorderedSet K → Except Fault (UnorderedSet K))
    (h : K → Nat) (k : K) (t : UnorderedSet K) (hc : Consistent h t)
    (hr : k ∈ t.elements ∨ t.size_ + 1 ≤ t.buckets_.length) :
    ∃ t1, t.insertWith r h k = .ok t1 ∧ Consistent h t1 ∧
      t1.buckets_.length = t.buckets_.length ∧
      (∀ j, j ∈ t1.elements ↔ j = k ∨ j ∈ t.elements) ∧
      t1.size_ = if k ∈ t.elements then t.size_ else t.size_ + 1 := by
  by_cases hk : k ∈ t.elements
  · refine ⟨t, insertWith_of_found r h k t ?_, hc, rfl, ?_, by simp [hk]⟩
    · rw [find_of_consistent h k t hc]
      simp [hk]
    · intro j
      constructor
      · exact fun hj => Or.inr hj
      · rintro (rfl | hj)
        · exact hk
        · exact hj
  · have hroom : t.size_ + 1 ≤ t.buckets_.length := hr.resolve_left hk
    have hb : t.buckets_.length ≠ 0 := by omega
    refine ⟨t.push h k, insertWith_of_room r h k t ?_ hroom, push_consistent h k t hc hk hroom,
      push_length h k t, ?_, by simp [hk, UnorderedSet.push]⟩
    · rw [find_of_consistent h k t hc]
      simp [hk]
    · intro j
      rw [(push_elements_perm h k t hb).mem_iff]
      simp

theorem fold_insert_room (r : Nat → UnorderedSet K → Except Fault (UnorderedSet K))
    (h : K → Nat) (l : List K) (t : UnorderedSet K) (hc : Consistent h t)
    (hr : t.size_ + l.length ≤ t.buckets_.length) :
    ∃ t1, l.foldlM (fun tmp e => tmp.insertWith r h e) t = .ok t1 ∧ Consistent h t1 ∧
      t1.buckets_.length = t.buckets_.length ∧
      (∀ j, j ∈ t1.elements ↔ j ∈ t.elements ∨ j ∈ l) := by
  induction l generalizing t with
  | nil => exact ⟨t, rfl, hc, rfl, by simp⟩
  | cons k l ih =>
    simp only [List.length_cons] at hr
    obtain ⟨t1, e1, c1, b1, m1, z1⟩ :=
      insertWith_consistent_room r h k t hc (Or.inr (by omega))
    have hr1 : t1.size_ + l.length ≤ t1.buckets_.length := by
      rw [z1, b1]
      split <;> omega
    obtain ⟨t2, e2, c2, b2, m2⟩ := ih t1 c1 hr1
    refine ⟨t2, ?_, c2, b2.trans b1, ?_⟩
    · simp only [List.foldlM_cons, e1]
      exact e2
    · intro j
      rw [m2, m1]
      simp only [List.mem_cons]
      tauto

theorem rehash_consistent (h : K → Nat) (fuel n : Nat) (s : UnorderedSet K)
    (hc : Consistent h s) (h1 : n ≠ s.buckets_.length) (h2 : s.size_ ≤ n) :
    ∃ s1, UnorderedSet.Rehash h (fuel + 1) n s = .ok s1 ∧ Consistent h s1 ∧
      s1.buckets_.length = n ∧ (∀ j, j ∈ s1.elements ↔ j ∈ s.elements) ∧
      s1.size_ = s.size_ := by
  have hroom : (UnorderedSet.sized n : UnorderedSet K).size_ + s.elements.length
      ≤ (UnorderedSet.sized n : UnorderedSet K).buckets_.length := by
    rw [← size_eq_of_consistent h s hc]
    simpa [UnorderedSet.sized] using h2
  obtain ⟨s1, e1, c1, b1, m1⟩ :=
    fold_insert_room (UnorderedSet.Rehash h fuel) h s.elements _ (sized_consistent h n) hroom
  have hm : ∀ j, j ∈ s1.elements ↔ j ∈ s.elements := by
    intro j
    rw [m1, sized_elements]
    simp
  refine ⟨s1, ?_, c1, ?_, hm, size_eq_of_same_elements h s s1 hc c1 hm⟩
  · rw [rehash_accepted h fuel n s h1 h2]
    exact e1
  · simpa [UnorderedSet.sized] using b1

theorem insert_consistent (h : K → Nat) (fuel : Nat) (k : K) (s : UnorderedSet K)
    (hc : Consistent h s) :
    ∃ s1, s.Insert (fuel + 1) h k = .ok s1 ∧ Consistent h s1 ∧
      (∀ j, j ∈ s1.elements ↔ j = k ∨ j ∈ s.elements) ∧
      s1.size_ = (if k ∈ s.elements then s.size_ else s.size_ + 1) ∧
      s1.buckets_.length =
        (if k ∈ s.elements ∨ s.size_ + 1 ≤ s.buckets_.length then s.buckets_.length
         else max 1 (s.buckets_.length * 2)) := by
  by_cases hr : k ∈ s.elements ∨ s.size_ + 1 ≤ s.buckets_.length
  · obtain ⟨s1, e1, c1, b1, m1, z1⟩ :=
      insertWith_consistent_room (UnorderedSet.Rehash h (fuel + 1)) h k s hc hr
    exact ⟨s1, e1, c1, m1, z1, by simp [hr, b1]⟩
  · have hk : k ∉ s.elements := fun hk => hr (Or.inl hk)
    have hfull : s.buckets_.length < s.size_ + 1 := by
      have : ¬ (s.size_ + 1 ≤ s.buckets_.length) := fun hx => hr (Or.inr hx)
      omega
    have hle : s.size_ ≤ s.buckets_.length := hc.2.2.2
    obtain ⟨s1, e1, c1, b1, m1, z1⟩ :=
      rehash_consistent h fuel (max 1 (s.buckets_.length * 2)) s hc (by omega) (by omega)
    have hb1 : s1.buckets_.length ≠ 0 := by omega
    have hk1 : k ∉ s1.elements := by rwa [m1]
    have hroom1 : s1.size_ + 1 ≤ s1.buckets_.length := by omega
    have hfind : s.Find h k = .ok false := by
      rw [find_of_consistent h k s hc]
      simp [hk]
    refine ⟨s1.push h k, insertWith_of_grow _ h k s s1 hfind hfull e1 hb1,
      push_consistent h k s1 c1 hk1 hroom1, ?_, ?_, ?_⟩
    · intro j
      rw [(push_elements_perm h k s1 hb1).mem_iff, List.mem_cons, m1]
    · simp [hk, UnorderedSet.push, z1]
    · simp only [hr, if_false, push_length, b1]

theorem fold_insert_consistent (h : K → Nat) (fuel : Nat) (l : List K) (t : UnorderedSet K)
    (hc : Consistent h t) :
    ∃ t1, l.foldlM (fun tmp e => tmp.Insert (fuel + 1) h e) t = .ok t1 ∧ Consistent h t1 ∧
      t.buckets_.length ≤ t1.buckets_.length ∧
      (∀ j, j ∈ t1.elements ↔ j ∈ t.elements ∨ j ∈ l) := by
  induction l generalizing t with
  | nil => exact ⟨t, rfl, hc, le_refl _, by simp⟩
  | cons k l ih =>
    obtain ⟨t1, e1, c1, m1, _, b1⟩ := insert_consistent h fuel k t hc
    have hb : t.buckets_.length ≤ t1.buckets_.length := by
      rw [b1]
      split <;> omega
    obtain ⟨t2, e2, c2, b2, m2⟩ := ih t1 c1
    refine ⟨t2, ?_, c2, hb.trans b2, ?_⟩
    · simp only [List.foldlM_cons, e1]
      exact e2
    · intro j
      rw [m2, m1]
      simp only [List.mem_cons]
      tauto

theorem rehash_rebuilds (h : K → Nat) (fuel n : Nat) (s : UnorderedSet K)
    (h1 : n ≠ s.buckets_.length) (h2 : s.size_ ≤ n) :
    ∃ s1, UnorderedSet.Rehash h (fuel + 2) n s = .ok s1 ∧ Consistent h s1 ∧
      n ≤ s1.buckets_.length ∧ (∀ j, j ∈ s1.elements ↔ j ∈ s.elements) := by
  obtain ⟨s1, e1, c1, b1, m1⟩ :=
    fold_insert_consistent h fuel s.elements _ (sized_consistent h n)
  refine ⟨s1, ?_, c1, by simpa [UnorderedSet.sized] using b1, ?_⟩
  · rw [rehash_accepted h (fuel + 1) n s h1 h2]
    exact e1
  · intro j
    rw [m1, sized_elements]
    simp

end Rebuild

/-! ## `Erase` -/

section Erasing

variable {K : Type} [DecidableEq K]

theorem flatten_perm_set (l : List (List K)) (i : Nat) (c c1 : List K) (x : K)
    (hi : l[i]? = some c) (hp : c.Perm (x :: c1)) :
    l.flatten.Perm (x :: (l.set i c1).flatten) := by
  induction l generalizing i with
  | nil => simp at hi
  | cons a t ih =>
    cases i with
    | zero =>
      simp at hi
      subst hi
      simpa using hp.append_right t.flatten
    | succ i =>
      simp at hi
      have h1 := ih i hi
      simp only [List.set_cons_succ, List.flatten_cons]
      exact (h1.append_left a).trans List.perm_middle

/-- The state after `Erase` when the set is not empty and has a bucket. -/
theorem erase_of_buckets (h : K → Nat) (k : K) (s : UnorderedSet K)
    (hs : s.size_ ≠ 0) (hb : s.buckets_.length ≠ 0) :
    s.Erase h k = .ok
      { buckets_ := if k ∈ s.chainOf h k then
          s.buckets_.set (h k % s.buckets_.length) ((s.chainOf h k).erase k)
          else s.buckets_,
        size_ := s.size_ - 1 } := by
  by_cases hk : k ∈ s.chainOf h k
  · simp [UnorderedSet.Erase, UnorderedSet.Empty, hs, getElementBucket_ok h k s hb, hk,
      setElementBucket_ok h k _ s hb]
  · simp [UnorderedSet.Erase, UnorderedSet.Empty, hs, getElementBucket_ok h k s hb, hk]

theorem erase_of_size_zero (h : K → Nat) (k : K) (s : UnorderedSet K) (hs : s.size_ = 0) :
    s.Erase h k = .ok s := by
  simp [UnorderedSet.Erase, UnorderedSet.Empty, hs]

theorem erase_consistent (h : K → Nat) (k : K) (s : UnorderedSet K)
    (hc : Consistent h s) (hk : k ∈ s.elements) :
    ∃ s1, s.Erase h k = .ok s1 ∧ Consistent h s1 ∧
      s1.buckets_ = s.buckets_.set (h k % s.buckets_.length) ((s.chainOf h k).erase k) ∧
      s1.size_ + 1 = s.size_ ∧ s.elements.Perm (k :: s1.elements) := by
  obtain ⟨hb, hkc⟩ := (mem_elements_iff_of_placed h k s hc.2.2.1).mp hk
  have hlt : h k % s.buckets_.length < s.buckets_.length :=
    Nat.mod_lt _ (Nat.pos_of_ne_zero hb)
  have hsz := size_eq_of_consistent h s hc
  have hs : s.size_ ≠ 0 := by
    have := List.length_pos_of_mem hk
    omega
  have hperm : s.elements.Perm (k :: (s.buckets_.set (h k % s.buckets_.length)
      ((s.chainOf h k).erase k)).flatten) :=
    flatten_perm_set _ _ _ _ k (chainOf_eq_of_getElem? h k s hb) (List.perm_cons_erase hkc)
  have hnd : (k :: (s.buckets_.set (h k % s.buckets_.length)
      ((s.chainOf h k).erase k)).flatten).Nodup := hperm.nodup_iff.mp hc.2.1
  refine ⟨_, erase_of_buckets h k s hs hb, ⟨?_, ?_, ?_, ?_⟩, by simp [hkc], ?_, ?_⟩
  · rw [chainTotal_eq_length]
    have := hperm.length_eq
    simp only [List.length_cons] at this
    simp only [UnorderedSet.Size, UnorderedSet.elements, hkc, if_true]
    simp only [UnorderedSet.elements] at hsz this
    omega
  · simpa [UnorderedSet.elements, hkc] using (List.nodup_cons.mp hnd).2
  · intro i hi x hx
    simp only [hkc, if_true, UnorderedSet.BucketCount, List.length_set] at hi hx ⊢
    rw [getD_set_eq _ _ _ _ hlt] at hx
    split at hx
    · rename_i heq
      have hx1 : x ∈ s.buckets_.getD i [] := by
        rw [← heq]
        exact List.mem_of_mem_erase hx
      exact hc.2.2.1 i hi x hx1
    · exact hc.2.2.1 i hi x hx
  · have := hc.2.2.2
    simp only [UnorderedSet.Size, UnorderedSet.BucketCount] at this ⊢
    simp only [hkc, if_true, List.length_set]
    omega
  · simp only []
    omega
  · simpa [UnorderedSet.elements, hkc] using hperm

end Erasing

/-! ## Sequences of calls -/

section Sequences

variable {K : Type} [DecidableEq K]

theorem insert_fresh (h : K → Nat) (fuel : Nat) (k : K) (s : UnorderedSet K)
    (hc : Consistent h s) (hk : k ∉ s.elements) :
    ∃ s1, s.Insert (fuel + 1) h k = .ok s1 ∧ Consistent h s1 ∧
      (∀ j, j ∈ s1.elements ↔ j = k ∨ j ∈ s.elements) ∧
      s1.size_ = s.size_ + 1 ∧
      s1.buckets_.length =
        (if s.size_ + 1 ≤ s.buckets_.length then s.buckets_.length
         else max 1 (s.buckets_.length * 2)) := by
  obtain ⟨s1, e1, c1, m1, z1, b1⟩ := insert_consistent h fuel k s hc
  exact ⟨s1, e1, c1, m1, by simpa [hk] using z1, by simpa [hk] using b1⟩

theorem default_consistent (h : K → Nat) :
    Consistent h (UnorderedSet.default : UnorderedSet K) :=
  sized_consistent h 0

theorem rehash_cases (h : K → Nat) (fuel n : Nat) (s : UnorderedSet K) (hc : Consistent h s) :
    ∃ s1, UnorderedSet.Rehash h (fuel + 1) n s = .ok s1 ∧ Consistent h s1 := by
  by_cases h1 : n = s.buckets_.length ∨ n < s.size_
  · exact ⟨s, rehash_ignored h fuel n s h1, hc⟩
  · obtain ⟨s1, e1, c1, _⟩ :=
      rehash_consistent h fuel n s hc (fun hx => h1 (Or.inl hx)) (by omega)
    exact ⟨s1, e1, c1⟩

/-- A call that satisfies the guard on `Erase` returns and keeps a consistent set consistent. -/
theorem apply_consistent (h : K → Nat) (fuel : Nat) (op : Op K) (s : UnorderedSet K)
    (hc : Consistent h s) (hg : op.eraseGuard h s) :
    ∃ s1, op.apply (fuel + 1) h s = .ok s1 ∧ Consistent h s1 := by
  cases op with
  | insert k =>
    obtain ⟨s1, e1, c1, _⟩ := insert_consistent h fuel k s hc
    exact ⟨s1, e1, c1⟩
  | erase k =>
    rcases hg with hg | hg
    · exact ⟨s, erase_of_size_zero h k s hg, hc⟩
    · have hmem : k ∈ s.elements := by
        rw [find_of_consistent h k s hc] at hg
        simpa using hg
      obtain ⟨s1, e1, c1, _⟩ := erase_consistent h k s hc hmem
      exact ⟨s1, e1, c1⟩
  | rehash n => exact rehash_cases h fuel n s hc
  | reserve n =>
    by_cases hn : n ≤ s.BucketCount
    · exact ⟨s, by simp [Op.apply, UnorderedSet.Reserve, hn], hc⟩
    · obtain ⟨s1, e1, c1⟩ := rehash_cases h fuel n s hc
      exact ⟨s1, by simpa [Op.apply, UnorderedSet.Reserve, hn] using e1, c1⟩
  | clear => exact ⟨UnorderedSet.default, rfl, default_consistent h⟩

theorem guardedReachable_consistent (h : K → Nat) (fuel : Nat) (s : UnorderedSet K)
    (hr : GuardedReachable (fuel + 1) h s) : Consistent h s := by
  induction hr with
  | default => exact default_consistent h
  | sized n => exact sized_consistent h n
  | step op s s1 _ hg he ih =>
    obtain ⟨s2, e2, c2⟩ := apply_consistent h fuel op s ih hg
    rw [he] at e2
    cases e2
    exact c2

theorem reachable_runOps (h : K → Nat) (fuel : Nat) (ops : List (Op K))
    (s s1 : UnorderedSet K) (hr : Reachable fuel h s) (he : runOps fuel h ops s = .ok s1) :
    Reachable fuel h s1 := by
  induction ops generalizing s with
  | nil =>
    simp only [runOps, List.foldlM_nil] at he
    cases he
    exact hr
  | cons op ops ih =>
    simp only [runOps, List.foldlM_cons] at he
    cases hop : op.apply fuel h s with
    | error e =>
      rw [hop] at he
      cases he
    | ok s2 =>
      rw [hop] at he
      exact ih s2 (Reachable.step op s s2 hr hop) he

theorem find_push (h : K → Nat) (k : K) (t : UnorderedSet K) (hb : t.buckets_.length ≠ 0) :
    (t.push h k).Find h k = .ok true := by
  have hlt : h k % t.buckets_.length < t.buckets_.length :=
    Nat.mod_lt _ (Nat.pos_of_ne_zero hb)
  have hb1 : (t.push h k).buckets_.length ≠ 0 := by rwa [push_length]
  rw [find_of_buckets h k _ (by simp [UnorderedSet.push]) hb1]
  have hc : (t.push h k).chainOf h k = t.chainOf h k ++ [k] := by
    unfold UnorderedSet.chainOf
    rw [push_length]
    simp only [UnorderedSet.push]
    rw [getD_set_eq _ _ _ _ hlt, if_pos rfl]
    rfl
  simp [hc]

theorem find_returns (h : K → Nat) (k : K) (s : UnorderedSet K)
    (hI : s.size_ ≠ 0 → s.buckets_.length ≠ 0) : ∃ b, s.Find h k = .ok b := by
  by_cases hs : s.size_ = 0
  · exact ⟨false, find_of_size_zero h k s hs⟩
  · exact ⟨_, find_of_buckets h k s hs (hI hs)⟩

theorem rehash_returns (h : K → Nat) (fuel n : Nat) (s : UnorderedSet K) :
    ∃ s1, UnorderedSet.Rehash h (fuel + 2) n s = .ok s1 ∧
      ((s1 = s ∧ (n = s.buckets_.length ∨ n < s.size_)) ∨
       (Consistent h s1 ∧ n ≤ s1.buckets_.length)) := by
  by_cases h1 : n = s.buckets_.length ∨ n < s.size_
  · exact ⟨s, rehash_ignored h (fuel + 1) n s h1, Or.inl ⟨rfl, h1⟩⟩
  · obtain ⟨s1, e1, c1, b1, _⟩ :=
      rehash_rebuilds h fuel n s (fun hx => h1 (Or.inl hx)) (by omega)
    exact ⟨s1, e1, Or.inr ⟨c1, b1⟩⟩

/-- On a set that has a bucket whenever it counts an element, `Insert` returns, leaves at
least one bucket, the key is found afterwards and a second `Insert` changes nothing. -/
theorem insert_returns (h : K → Nat) (fuel : Nat) (k : K) (s : UnorderedSet K)
    (hI : s.size_ ≠ 0 → s.buckets_.length ≠ 0) :
    ∃ s1, s.Insert (fuel + 2) h k = .ok s1 ∧ s1.buckets_.length ≠ 0 ∧
      s1.Find h k = .ok true ∧ s1.Insert (fuel + 2) h k = .ok s1 := by
  obtain ⟨b, hb⟩ := find_returns h k s hI
  cases b with
  | true =>
    have hs : s.size_ ≠ 0 := by
      intro hs
      rw [find_of_size_zero h k s hs] at hb
      cases hb
    exact ⟨s, insertWith_of_found _ h k s hb, hI hs, hb, insertWith_of_found _ h k s hb⟩
  | false =>
    have key : ∃ t : UnorderedSet K,
        s.Insert (fuel + 2) h k = .ok (t.push h k) ∧ t.buckets_.length ≠ 0 := by
      by_cases hr : s.size_ + 1 ≤ s.buckets_.length
      · exact ⟨s, insertWith_of_room _ h k s hb hr, by omega⟩
      · obtain ⟨t, e1, hcase⟩ := rehash_returns h fuel (max 1 (s.buckets_.length * 2)) s
        have ht : t.buckets_.length ≠ 0 := by
          rcases hcase with ⟨rfl, hx⟩ | ⟨_, hx⟩
          · intro h0
            have hs0 : t.size_ = 0 := by
              by_contra hne
              exact hI hne h0
            omega
          · omega
        exact ⟨t, insertWith_of_grow _ h k s t hb (by omega) e1 ht, ht⟩
    obtain ⟨t, e1, ht⟩ := key
    have hf := find_push h k t ht
    exact ⟨t.push h k, e1, by rwa [push_length], hf, insertWith_of_found _ h k _ hf⟩

theorem erase_returns (h : K → Nat) (k : K) (s : UnorderedSet K)
    (hI : s.size_ ≠ 0 → s.buckets_.length ≠ 0) :
    ∃ s1, s.Erase h k = .ok s1 ∧ s1.buckets_.length = s.buckets_.length ∧
      s1.size_ ≤ s.size_ := by
  by_cases hs : s.size_ = 0
  · exact ⟨s, erase_of_size_zero h k s hs, rfl, le_refl _⟩
  · refine ⟨_, erase_of_buckets h k s hs (hI hs), ?_, by simp⟩
    simp only []
    split <;> simp

/-- Every call on a set that has a bucket whenever it counts an element returns, with a set
of the same kind. -/
theorem apply_returns (h : K → Nat) (fuel : Nat) (op : Op K) (s : UnorderedSet K)
    (hI : s.size_ ≠ 0 → s.buckets_.length ≠ 0) :
    ∃ s1, op.apply (fuel + 2) h s = .ok s1 ∧ (s1.size_ ≠ 0 → s1.buckets_.length ≠ 0) := by
  have hcons : ∀ t : UnorderedSet K, Consistent h t → t.size_ ≠ 0 → t.buckets_.length ≠ 0 := by
    intro t ht h0
    have := ht.2.2.2
    simp only [UnorderedSet.Size, UnorderedSet.BucketCount] at this
    omega
  have hre : ∀ n, ∃ s1, UnorderedSet.Rehash h (fuel + 2) n s = .ok s1 ∧
      (s1.size_ ≠ 0 → s1.buckets_.length ≠ 0) := by
    intro n
    obtain ⟨s1, e1, hcase⟩ := rehash_returns h fuel n s
    refine ⟨s1, e1, ?_⟩
    rcases hcase with ⟨rfl, _⟩ | ⟨c1, _⟩
    · exact hI
    · exact hcons s1 c1
  cases op with
  | insert k =>
    obtain ⟨s1, e1, b1, _⟩ := insert_returns h fuel k s hI
    exact ⟨s1, e1, fun _ => b1⟩
  | erase k =>
    obtain ⟨s1, e1, b1, z1⟩ := erase_returns h k s hI
    refine ⟨s1, e1, fun h0 => ?_⟩
    rw [b1]
    exact hI (by omega)
  | rehash n => exact hre n
  | reserve n =>
    by_cases hn : n ≤ s.BucketCount
    · exact ⟨s, by simp [Op.apply, UnorderedSet.Reserve, hn], hI⟩
    · obtain ⟨s1, e1, i1⟩ := hre n
      exact ⟨s1, by simpa [Op.apply, UnorderedSet.Reserve, hn] using e1, i1⟩
  | clear => exact ⟨UnorderedSet.default, rfl, fun h0 => absurd rfl h0⟩

theorem reachable_has_bucket (h : K → Nat) (fuel : Nat) (s : UnorderedSet K)
    (hr : Reachable (fuel + 2) h s) : s.size_ ≠ 0 → s.buckets_.length ≠ 0 := by
  induction hr with
  | default => exact fun h0 => absurd rfl h0
  | sized n => exact fun h0 => absurd rfl h0
  | step op s s1 _ he ih =>
    obtain ⟨s2, e2, i2⟩ := apply_returns h fuel op s ih
    rw [he] at e2
    cases e2
    exact i2

end Sequences

/-! ## Invariants of reachable sets -/

section ReachableSets

variable {K : Type} [DecidableEq K]

theorem placed_set (h : K → Nat) (s : UnorderedSet K) (i : Nat) (c : List K) (z : Nat)
    (hi : i < s.buckets_.length) (hp : Placed h s)
    (hc : ∀ x ∈ c, x ∈ s.buckets_.getD i []) :
    Placed h { buckets_ := s.buckets_.set i c, size_ := z } := by
  intro j hj x hx
  simp only [UnorderedSet.BucketCount, List.length_set] at hj hx ⊢
  rw [getD_set_eq _ _ _ _ hi] at hx
  split at hx
  · rename_i heq
    subst heq
    exact hp i hj x (hc x hx)
  · exact hp j hj x hx

/-- The result of `Insert` on a set that has a bucket whenever it counts an element: either
the set itself (the key was found), or the key appended to a set `t` with a bucket, which is
the set itself or the consistent result of the growing `Rehash`. -/
theorem insert_shape (h : K → Nat) (fuel : Nat) (k : K) (s : UnorderedSet K)
    (hI : s.size_ ≠ 0 → s.buckets_.length ≠ 0) :
    ∃ s1, s.Insert (fuel + 2) h k = .ok s1 ∧
      ((s1 = s ∧ s.buckets_.length ≠ 0) ∨
       ∃ t : UnorderedSet K, s1 = t.push h k ∧ t.buckets_.length ≠ 0 ∧
         (t = s ∨ (Consistent h t ∧ s.buckets_.length ≤ t.buckets_.length))) := by
  obtain ⟨b, hb⟩ := find_returns h k s hI
  cases b with
  | true =>
    have hs : s.size_ ≠ 0 := by
      intro hs
      rw [find_of_size_zero h k s hs] at hb
      cases hb
    exact ⟨s, insertWith_of_found _ h k s hb, Or.inl ⟨rfl, hI hs⟩⟩
  | false =>
    by_cases hr : s.size_ + 1 ≤ s.buckets_.length
    · exact ⟨s.push h k, insertWith_of_room _ h k s hb hr,
        Or.inr ⟨s, rfl, by omega, Or.inl rfl⟩⟩
    · obtain ⟨t, e1, hcase⟩ := rehash_returns h fuel (max 1 (s.buckets_.length * 2)) s
      have ht : t.buckets_.length ≠ 0 := by
        rcases hcase with ⟨rfl, hx⟩ | ⟨_, hx⟩
        · intro h0
          have hs0 : t.size_ = 0 := by
            by_contra hne
            exact hI hne h0
          omega
        · omega
      refine ⟨t.push h k, insertWith_of_grow _ h k s t hb (by omega) e1 ht,
        Or.inr ⟨t, rfl, ht, ?_⟩⟩
      rcases hcase with ⟨rfl, _⟩ | ⟨c1, hx⟩
      · exact Or.inl rfl
      · exact Or.inr ⟨c1, by omega⟩

theorem insert_placed (h : K → Nat) (fuel : Nat) (k : K) (s : UnorderedSet K)
    (hI : s.size_ ≠ 0 → s.buckets_.length ≠ 0) (hp : Placed h s) :
    ∃ s1, s.Insert (fuel + 2) h k = .ok s1 ∧ Placed h s1 ∧
      s.buckets_.length ≤ s1.buckets_.length := by
  obtain ⟨s1, e1, hcase⟩ := insert_shape h fuel k s hI
  refine ⟨s1, e1, ?_⟩
  rcases hcase with ⟨rfl, _⟩ | ⟨t, rfl, ht, rfl | ⟨c1, hle⟩⟩
  · exact ⟨hp, le_refl _⟩
  · exact ⟨push_placed h k t ht hp, by rw [push_length]⟩
  · exact ⟨push_placed h k t ht c1.2.2.1, by rwa [push_length]⟩

theorem erase_placed (h : K → Nat) (k : K) (s : UnorderedSet K)
    (hI : s.size_ ≠ 0 → s.buckets_.length ≠ 0) (hp : Placed h s) :
    ∃ s1, s.Erase h k = .ok s1 ∧ Placed h s1 ∧ s1.buckets_.length = s.buckets_.length := by
  by_cases hs : s.size_ = 0
  · exact ⟨s, erase_of_size_zero h k s hs, hp, rfl⟩
  · have hb := hI hs
    have hlt : h k % s.buckets_.length < s.buckets_.length :=
      Nat.mod_lt _ (Nat.pos_of_ne_zero hb)
    refine ⟨_, erase_of_buckets h k s hs hb, ?_, ?_⟩
    · by_cases hk : k ∈ s.chainOf h k
      · simp only [hk, if_true]
        exact placed_set h s _ _ _ hlt hp (fun x hx => List.mem_of_mem_erase hx)
      · simp only [hk, if_false]
        exact hp
    · simp only []
      split <;> simp

theorem rehash_placed (h : K → Nat) (fuel n : Nat) (s : UnorderedSet K) (hp : Placed h s) :
    ∃ s1, UnorderedSet.Rehash h (fuel + 2) n s = .ok s1 ∧ Placed h s1 ∧
      min n s.buckets_.length ≤ s1.buckets_.length := by
  obtain ⟨s1, e1, hcase⟩ := rehash_returns h fuel n s
  refine ⟨s1, e1, ?_⟩
  rcases hcase with ⟨rfl, _⟩ | ⟨c1, hx⟩
  · exact ⟨hp, Nat.min_le_right _ _⟩
  · exact ⟨c1.2.2.1, le_trans (Nat.min_le_left _ _) hx⟩

theorem reserve_placed (h : K → Nat) (fuel n : Nat) (s : UnorderedSet K) (hp : Placed h s) :
    ∃ s1, s.Reserve (fuel + 2) h n = .ok s1 ∧ Placed h s1 ∧
      s.buckets_.length ≤ s1.buckets_.length := by
  by_cases hn : n ≤ s.BucketCount
  · exact ⟨s, by simp [UnorderedSet.Reserve, hn], hp, le_refl _⟩
  · obtain ⟨s1, e1, p1, b1⟩ := rehash_placed h fuel n s hp
    refine ⟨s1, by simpa [UnorderedSet.Reserve, hn] using e1, p1, ?_⟩
    simp only [UnorderedSet.BucketCount] at hn
    rw [Nat.min_eq_right (by omega)] at b1
    exact b1

theorem default_placed (h : K → Nat) : Placed h (UnorderedSet.default : UnorderedSet K) :=
  (default_consistent h).2.2.1

/-- Every call on a set with the placement invariant returns a set with it. -/
theorem apply_placed (h : K → Nat) (fuel : Nat) (op : Op K) (s : UnorderedSet K)
    (hI : s.size_ ≠ 0 → s.buckets_.length ≠ 0) (hp : Placed h s) :
    ∃ s1, op.apply (fuel + 2) h s = .ok s1 ∧ Placed h s1 := by
  cases op with
  | insert k =>
    obtain ⟨s1, e1, p1, _⟩ := insert_placed h fuel k s hI hp
    exact ⟨s1, e1, p1⟩
  | erase k =>
    obtain ⟨s1, e1, p1, _⟩ := erase_placed h k s hI hp
    exact ⟨s1, e1, p1⟩
  | rehash n =>
    obtain ⟨s1, e1, p1, _⟩ := rehash_placed h fuel n s hp
    exact ⟨s1, e1, p1⟩
  | reserve n =>
    obtain ⟨s1, e1, p1, _⟩ := reserve_placed h fuel n s hp
    exact ⟨s1, e1, p1⟩
  | clear => exact ⟨UnorderedSet.default, rfl, default_placed h⟩

theorem reachable_placed (h : K → Nat) (fuel : Nat) (s : UnorderedSet K)
    (hr : Reachable (fuel + 2) h s) : Placed h s := by
  induction hr with
  | default => exact default_placed h
  | sized n => exact (sized_consistent h n).2.2.1
  | step op s s1 hs he ih =>
    obtain ⟨s2, e2, p2⟩ := apply_placed h fuel op s (reachable_has_bucket h fuel s hs) ih
    rw [he] at e2
    cases e2
    exact p2

end ReachableSets

/-! ## Construction from a range, and growth from the empty set -/

section Ranges

variable {K : Type} [DecidableEq K]

theorem default_elements : (UnorderedSet.default : UnorderedSet K).elements = [] :=
  sized_elements 0

theorem ofRange_append (h : K → Nat) (fuel : Nat) (l : List K) (k : K) (s : UnorderedSet K)
    (hs : UnorderedSet.ofRange fuel h l = .ok s) :
    UnorderedSet.ofRange fuel h (l ++ [k]) = s.Insert fuel h k := by
  unfold UnorderedSet.ofRange at hs ⊢
  rw [List.foldlM_append, hs]
  simp only [bind, Except.bind, pure, Except.pure, List.foldlM_cons, List.foldlM_nil]
  cases s.Insert fuel h k <;> rfl

theorem ofRange_consistent (h : K → Nat) (fuel : Nat) (xs : List K) :
    ∃ s, UnorderedSet.ofRange (fuel + 1) h xs = .ok s ∧ Consistent h s ∧
      (∀ j, j ∈ s.elements ↔ j ∈ xs) := by
  obtain ⟨s, e1, c1, _, m1⟩ :=
    fold_insert_consistent h fuel xs UnorderedSet.default (default_consistent h)
  refine ⟨s, e1, c1, fun j => ?_⟩
  rw [m1, default_elements]
  simp

theorem runOps_insert (h : K → Nat) (fuel : Nat) (xs : List K) (t : UnorderedSet K) :
    runOps fuel h (xs.map Op.insert) t = xs.foldlM (fun s x => s.Insert fuel h x) t := by
  induction xs generalizing t with
  | nil => rfl
  | cons x xs ih =>
    simp only [runOps, List.map_cons, List.foldlM_cons, Op.apply]
    congr 1
    funext s1
    exact ih s1

theorem grownCount_step (i B : Nat) (hg : GrownCount i B) :
    GrownCount (i + 1) (if i + 1 ≤ B then B else max 1 (B * 2)) := by
  rcases hg with ⟨rfl, rfl⟩ | ⟨e, rfl, h1, h2⟩
  · exact Or.inr ⟨0, by simp, by simp, by simp⟩
  · by_cases hr : i + 1 ≤ 2 ^ e
    · rw [if_pos hr]
      exact Or.inr ⟨e, rfl, hr, by omega⟩
    · rw [if_neg hr]
      refine Or.inr ⟨e + 1, ?_, ?_, ?_⟩
      · rw [pow_succ]
        have : 0 < 2 ^ e := Nat.pow_pos (by decide)
        omega
      · rw [pow_succ]
        omega
      · rw [pow_succ]
        omega

theorem grownCount_least (n B : Nat) (hg : GrownCount n B) (hn : 1 ≤ n) :
    ∃ e, B = 2 ^ e ∧ n ≤ 2 ^ e ∧ ∀ e1, n ≤ 2 ^ e1 → 2 ^ e ≤ 2 ^ e1 := by
  rcases hg with ⟨rfl, _⟩ | ⟨e, rfl, h1, h2⟩
  · omega
  · refine ⟨e, rfl, h1, fun e1 he1 => ?_⟩
    have hlt : 2 ^ e < 2 ^ (e1 + 1) := by
      rw [pow_succ]
      omega
    have := (Nat.pow_lt_pow_iff_right (by decide : 1 < 2)).mp hlt
    exact Nat.pow_le_pow_right (by decide) (by omega)

theorem grownCount_trigger (i B : Nat) (hg : GrownCount i B) :
    B < i + 1 ↔ (i = 0 ∨ ∃ e, i = 2 ^ e) := by
  rcases hg with ⟨rfl, rfl⟩ | ⟨e, rfl, h1, h2⟩
  · simp
  · constructor
    · intro hlt
      exact Or.inr ⟨e, by omega⟩
    · rintro (rfl | ⟨e1, rfl⟩)
      · omega
      · have h3 : e1 ≤ e := (Nat.pow_le_pow_iff_right (by decide : 1 < 2)).mp h1
        have h4 : 2 ^ e < 2 ^ (e1 + 1) := by
          rw [pow_succ]
          omega
        have h5 := (Nat.pow_lt_pow_iff_right (by decide : 1 < 2)).mp h4
        have : e = e1 := by omega
        subst this
        omega

/-- The set built from a sequence of pairwise distinct keys. -/
theorem ofRange_nodup (h : K → Nat) (fuel : Nat) (l : List K) (hnd : l.Nodup) :
    ∃ s, UnorderedSet.ofRange (fuel + 1) h l = .ok s ∧ Consistent h s ∧
      (∀ j, j ∈ s.elements ↔ j ∈ l) ∧ s.size_ = l.length ∧
      GrownCount l.length s.buckets_.length := by
  induction l using List.reverseRecOn with
  | nil =>
    exact ⟨UnorderedSet.default, rfl, default_consistent h,
      by simp [default_elements], rfl, Or.inl ⟨rfl, rfl⟩⟩
  | append_singleton l k ih =>
    have hnd1 : l.Nodup := (List.nodup_append.mp hnd).1
    have hk : k ∉ l := by
      intro hk
      exact (List.nodup_append.mp hnd).2.2 hk (List.mem_singleton_self k)
    obtain ⟨s, e1, c1, m1, z1, g1⟩ := ih hnd1
    obtain ⟨s1, e2, c2, m2, z2, b2⟩ := insert_fresh h fuel k s c1 (by rwa [m1])
    refine ⟨s1, ?_, c2, ?_, ?_, ?_⟩
    · rw [ofRange_append h (fuel + 1) l k s e1]
      exact e2
    · intro j
      rw [m2, m1, List.mem_append, List.mem_singleton]
      tauto
    · simp [z2, z1]
    · rw [b2, z1, List.length_append, List.length_singleton]
      exact grownCount_step _ _ g1

end Ranges

/-! ## The claims -/

section Claims

variable {K : Type} [DecidableEq K]

/-- C1. `Insert` adds exactly the given key: on a consistent set, for every hash function and
all keys `k` and `j`, with any recursion budget of at least 1, `Insert(k)` returns, afterwards
`Find(j)` is true iff `j = k` or `Find(j)` was true before, and `Size()` has grown by one when
`Find(k)` was false before and is unchanged otherwise; this covers the inserts that go through
a rehash. -/
theorem insert_adds_exactly_key (h : K → Nat) (s : UnorderedSet K) (k j : K) (fuel : Nat)
    (hc : Consistent h s) (hfuel : 1 ≤ fuel) :
    ∃ s1 b bj bj1, s.Insert fuel h k = .ok s1 ∧ s.Find h k = .ok b ∧
      s.Find h j = .ok bj ∧ s1.Find h j = .ok bj1 ∧
      (bj1 = true ↔ j = k ∨ bj = true) ∧
      s1.Size = (if b = true then s.Size else s.Size + 1) := by
  obtain ⟨f, rfl⟩ : ∃ f, fuel = f + 1 := ⟨fuel - 1, by omega⟩
  obtain ⟨s1, e1, c1, m1, z1, _⟩ := insert_consistent h f k s hc
  refine ⟨s1, decide (k ∈ s.elements), decide (j ∈ s.elements), decide (j ∈ s1.elements),
    e1, find_of_consistent h k s hc, find_of_consistent h j s hc,
    find_of_consistent h j s1 c1, ?_, ?_⟩
  · simp [m1]
  · simp only [UnorderedSet.Size, z1, decide_eq_true_eq]

theorem insert_adds_exactly_key_witness :
    Consistent (fun x => x) fullSingleton ∧
    ∃ s1 b bj bj1, fullSingleton.Insert 1 (fun x => x) 2 = .ok s1 ∧
      fullSingleton.Find (fun x => x) 2 = .ok b ∧
      fullSingleton.Find (fun x => x) 1 = .ok bj ∧ s1.Find (fun x => x) 1 = .ok bj1 ∧
      (bj1 = true ↔ 1 = 2 ∨ bj = true) ∧
      s1.Size = (if b = true then fullSingleton.Size else fullSingleton.Size + 1) :=
  ⟨by decide, insert_adds_exactly_key (fun x => x) fullSingleton 2 1 1 (by decide) (by decide)⟩

/-- C3. `Erase` of a present key removes only that key: on a consistent set where `Find(k)`
is true, `Erase(k)` returns, afterwards `Find(k)` is false, `Find(j)` is as before for every
`j ≠ k`, `Size()` is one less, `BucketCount()` is the same, and every chain other than chain
`hash(k) mod BucketCount()` is the same. -/
theorem erase_present_removes_only_key (h : K → Nat) (s : UnorderedSet K) (k : K)
    (hc : Consistent h s) (hk : s.Find h k = .ok true) :
    ∃ s1, s.Erase h k = .ok s1 ∧ s1.Find h k = .ok false ∧
      (∀ j, j ≠ k → s1.Find h j = s.Find h j) ∧
      s1.Size + 1 = s.Size ∧ s1.BucketCount = s.BucketCount ∧
      (∀ i, i ≠ h k % s.BucketCount → s1.buckets_.getD i [] = s.buckets_.getD i []) := by
  have hmem : k ∈ s.elements := by
    rw [find_of_consistent h k s hc] at hk
    simpa using hk
  obtain ⟨hb, _⟩ := (mem_elements_iff_of_placed h k s hc.2.2.1).mp hmem
  have hlt : h k % s.buckets_.length < s.buckets_.length :=
    Nat.mod_lt _ (Nat.pos_of_ne_zero hb)
  obtain ⟨s1, e1, c1, b1, z1, p1⟩ := erase_consistent h k s hc hmem
  have hnd : (k :: s1.elements).Nodup := p1.nodup_iff.mp hc.2.1
  refine ⟨s1, e1, ?_, ?_, z1, ?_, ?_⟩
  · rw [find_of_consistent h k s1 c1]
    simpa using (List.nodup_cons.mp hnd).1
  · intro j hj
    rw [find_of_consistent h j s1 c1, find_of_consistent h j s hc]
    congr 1
    simp [p1.mem_iff, hj]
  · simp [UnorderedSet.BucketCount, b1]
  · intro i hi
    simp only [UnorderedSet.BucketCount] at hi
    rw [b1, getD_set_eq _ _ _ _ hlt, if_neg (fun heq => hi heq.symm)]

theorem erase_present_removes_only_key_witness :
    (Consistent (fun x => x) twoOfFour ∧ twoOfFour.Find (fun x => x) 1 = .ok true) ∧
    ∃ s1, twoOfFour.Erase (fun x => x) 1 = .ok s1 ∧ s1.Find (fun x => x) 1 = .ok false ∧
      (∀ j, j ≠ 1 → s1.Find (fun x => x) j = twoOfFour.Find (fun x => x) j) ∧
      s1.Size + 1 = twoOfFour.Size ∧ s1.BucketCount = twoOfFour.BucketCount ∧
      (∀ i, i ≠ (fun x => x) 1 % twoOfFour.BucketCount →
        s1.buckets_.getD i [] = twoOfFour.buckets_.getD i []) :=
  ⟨⟨by decide, by decide⟩,
    erase_present_removes_only_key (fun x => x) twoOfFour 1 (by decide) (by decide)⟩

/-- C6. `Erase` of an absent key still decrements the count: on any set with `Size() > 0` and
`BucketCount() > 0`, for a key `k` that does not occur in chain `hash(k) mod BucketCount()`,
`Erase(k)` returns with every chain and the bucket count as before and `Size()` one less, so
`Size()` is then strictly below the sum of the chain lengths whenever the two were equal. -/
theorem erase_absent_decrements (h : K → Nat) (s : UnorderedSet K) (k : K)
    (hs : 0 < s.Size) (hb : 0 < s.BucketCount)
    (hk : k ∉ s.buckets_.getD (h k % s.BucketCount) []) :
    ∃ s1, s.Erase h k = .ok s1 ∧ s1.buckets_ = s.buckets_ ∧
      s1.BucketCount = s.BucketCount ∧ s1.Size + 1 = s.Size ∧
      (s.Size = s.chainTotal → s1.Size < s1.chainTotal) := by
  simp only [UnorderedSet.Size, UnorderedSet.BucketCount] at hs hb hk
  have hk1 : k ∉ s.chainOf h k := hk
  refine ⟨_, erase_of_buckets h k s (by omega) (by omega), by simp [hk1], ?_, ?_, ?_⟩
  · simp [UnorderedSet.BucketCount, hk1]
  · simp only [UnorderedSet.Size]
    omega
  · intro heq
    simp only [chainTotal_eq_length, UnorderedSet.Size, UnorderedSet.elements] at heq ⊢
    simp only [hk1, if_false]
    omega

theorem erase_absent_decrements_witness :
    (0 < twoOfFour.Size ∧ 0 < twoOfFour.BucketCount ∧
      7 ∉ twoOfFour.buckets_.getD ((fun x => x) 7 % twoOfFour.BucketCount) []) ∧
    ∃ s1, twoOfFour.Erase (fun x => x) 7 = .ok s1 ∧ s1.buckets_ = twoOfFour.buckets_ ∧
      s1.BucketCount = twoOfFour.BucketCount ∧ s1.Size + 1 = twoOfFour.Size ∧
      (twoOfFour.Size = twoOfFour.chainTotal → s1.Size < s1.chainTotal) :=
  ⟨⟨by decide, by decide, by decide⟩,
    erase_absent_decrements (fun x => x) twoOfFour 7 (by decide) (by decide) (by decide)⟩

/-- C9. An accepted `Rehash` preserves membership and installs exactly the requested bucket
count: on a consistent set, for `n ≠ BucketCount()` with `Size() ≤ n`, `Rehash(n)` returns
with any recursion budget of at least 1 (so the rebuild calls no nested `Rehash`), and
afterwards `BucketCount() = n`, `Size()` is as before and `Find(k)` is as before for every
key `k`. -/
theorem rehash_preserves_membership (h : K → Nat) (s : UnorderedSet K) (n fuel : Nat)
    (hc : Consistent h s) (hn : n ≠ s.BucketCount) (hsz : s.Size ≤ n) (hfuel : 1 ≤ fuel) :
    ∃ s1, UnorderedSet.Rehash h fuel n s = .ok s1 ∧ s1.BucketCount = n ∧
      s1.Size = s.Size ∧ ∀ k, s1.Find h k = s.Find h k := by
  obtain ⟨f, rfl⟩ : ∃ f, fuel = f + 1 := ⟨fuel - 1, by omega⟩
  obtain ⟨s1, e1, c1, b1, m1, z1⟩ := rehash_consistent h f n s hc hn hsz
  refine ⟨s1, e1, b1, z1, ?_⟩
  intro k
  rw [find_of_consistent h k s1 c1, find_of_consistent h k s hc]
  congr 1
  simp [m1]

theorem rehash_preserves_membership_witness :
    (Consistent (fun x => x) twoOfFour ∧ 3 ≠ twoOfFour.BucketCount ∧ twoOfFour.Size ≤ 3) ∧
    ∃ s1, UnorderedSet.Rehash (fun x => x) 1 3 twoOfFour = .ok s1 ∧ s1.BucketCount = 3 ∧
      s1.Size = twoOfFour.Size ∧
      ∀ k, s1.Find (fun x => x) k = twoOfFour.Find (fun x => x) k :=
  ⟨⟨by decide, by decide, by decide⟩,
    rehash_preserves_membership (fun x => x) twoOfFour 3 1 (by decide) (by decide)
      (by decide) (by decide)⟩

/-- C4. `Insert` is idempotent: on every set reachable from a default-constructed or
sized-constructed set by `Insert`, `Erase`, `Rehash`, `Reserve` and `Clear` calls, `Insert(k)`
returns, `Find(k)` is true afterwards, and a second `Insert(k)` returns the state of the first
unchanged (every chain, `Size()` and `BucketCount()`). -/
theorem insert_idempotent (h : K → Nat) (s : UnorderedSet K) (k : K) (fuel : Nat)
    (hr : Reachable fuel h s) (hfuel : 2 ≤ fuel) :
    ∃ s1, s.Insert fuel h k = .ok s1 ∧ s1.Find h k = .ok true ∧
      s1.Insert fuel h k = .ok s1 := by
  obtain ⟨f, rfl⟩ : ∃ f, fuel = f + 2 := ⟨fuel - 2, by omega⟩
  obtain ⟨s1, e1, _, f1, e2⟩ := insert_returns h f k s (reachable_has_bucket h f s hr)
  exact ⟨s1, e1, f1, e2⟩

theorem insert_idempotent_witness :
    Reachable 2 (id : Nat → Nat) fullSingleton ∧
    ∃ s1, fullSingleton.Insert 2 id 2 = .ok s1 ∧ s1.Find id 2 = .ok true ∧
      s1.Insert 2 id 2 = .ok s1 :=
  have hr : Reachable 2 (id : Nat → Nat) fullSingleton :=
    Reachable.step (.insert 1) (UnorderedSet.sized 1) fullSingleton (Reachable.sized 1)
      (by decide)
  ⟨hr, insert_idempotent id fullSingleton 2 2 hr (by decide)⟩

/-- C5. `Size()` equals the sum of the chain lengths: in every sequence of `Insert`, `Rehash`,
`Reserve`, `Clear` and `Erase` calls from a default-constructed or sized-constructed set in
which each `Erase(k)` is made on a set with `Size() = 0` or with `Find(k)` true, the state
after each call has `Size()` equal to the sum of `BucketSize(i)` for `i` in
`0..BucketCount()-1`, and every further such call returns with a state of which this holds
again. -/
theorem size_eq_chainTotal_of_guarded (h : K → Nat) (s : UnorderedSet K) (fuel : Nat)
    (hr : GuardedReachable fuel h s) (hfuel : 1 ≤ fuel) :
    s.Size = s.chainTotal ∧
    ∀ op : Op K, op.eraseGuard h s →
      ∃ s1, op.apply fuel h s = .ok s1 ∧ s1.Size = s1.chainTotal := by
  obtain ⟨f, rfl⟩ : ∃ f, fuel = f + 1 := ⟨fuel - 1, by omega⟩
  have hc := guardedReachable_consistent h f s hr
  refine ⟨hc.1, fun op hg => ?_⟩
  obtain ⟨s1, e1, c1⟩ := apply_consistent h f op s hc hg
  exact ⟨s1, e1, c1.1⟩

theorem size_eq_chainTotal_of_guarded_witness :
    GuardedReachable 1 (id : Nat → Nat) fullSingleton ∧
    (fullSingleton.Size = fullSingleton.chainTotal ∧
      ∀ op : Op Nat, op.eraseGuard id fullSingleton →
        ∃ s1, op.apply 1 id fullSingleton = .ok s1 ∧ s1.Size = s1.chainTotal) :=
  have hr : GuardedReachable 1 (id : Nat → Nat) fullSingleton :=
    GuardedReachable.step (.insert 1) (UnorderedSet.sized 1) fullSingleton
      (GuardedReachable.sized 1) trivial (by decide)
  ⟨hr, size_eq_chainTotal_of_guarded id fullSingleton 1 hr (by decide)⟩

/-- C2, evaluated where it fails. From `UnorderedSet(4)` with the identity hash, the calls
`Insert(1)`, `Erase(2)`, `Insert(1)`, `Insert(2)` reach a set that stores 1 twice; on it
`Insert(1)` changes nothing, `Erase(1)` removes one copy, and `Find(1)` is still true. -/
theorem roundtrip_after_absent_erase :
    runOps 2 (id : Nat → Nat) [.insert 1, .erase 2, .insert 1, .insert 2]
        (UnorderedSet.sized 4) = .ok storedTwiceAndTwo ∧
    Reachable 2 (id : Nat → Nat) storedTwiceAndTwo ∧
    storedTwiceAndTwo.Insert 2 id 1 = .ok storedTwiceAndTwo ∧
    storedTwiceAndTwo.Erase id 1 = .ok { buckets_ := [[], [1], [2], []], size_ := 1 } ∧
    UnorderedSet.Find id 1 { buckets_ := [[], [1], [2], []], size_ := 1 } = .ok true :=
  have he : runOps 2 (id : Nat → Nat) [.insert 1, .erase 2, .insert 1, .insert 2]
      (UnorderedSet.sized 4) = .ok storedTwiceAndTwo := by decide
  ⟨he, reachable_runOps id 2 _ _ _ (Reachable.sized 4) he, by decide, by decide, by decide⟩

/-- C7, evaluated where it fails. From `UnorderedSet(4)` with the identity hash, the calls
`Insert(1)`, `Erase(2)`, `Insert(1)` reach a set whose chain 1 holds the key 1 twice. -/
theorem duplicate_after_absent_erase :
    runOps 2 (id : Nat → Nat) [.insert 1, .erase 2, .insert 1]
        (UnorderedSet.sized 4) = .ok storedTwice ∧
    Reachable 2 (id : Nat → Nat) storedTwice ∧
    storedTwice.buckets_.getD 1 [] = [1, 1] ∧
    ¬ storedTwice.elements.Nodup :=
  have he : runOps 2 (id : Nat → Nat) [.insert 1, .erase 2, .insert 1]
      (UnorderedSet.sized 4) = .ok storedTwice := by decide
  ⟨he, reachable_runOps id 2 _ _ _ (Reachable.sized 4) he, by decide, by decide⟩

/-- C8, evaluated where it fails. From `UnorderedSet(1)` with the identity hash, the calls
`Insert(1)`, `Erase(7)`, `Insert(2)`, `Insert(3)` reach, by an `Insert`, a set with
`Size() = 3` and `BucketCount() = 2`. -/
theorem load_factor_after_absent_erase :
    runOps 2 (id : Nat → Nat) [.insert 1, .erase 7, .insert 2]
        (UnorderedSet.sized 1) = .ok { buckets_ := [[1, 2]], size_ := 1 } ∧
    UnorderedSet.Insert 2 id 3 { buckets_ := [[1, 2]], size_ := 1 } = .ok overfull ∧
    Reachable 2 (id : Nat → Nat) overfull ∧
    overfull.Size = 3 ∧ overfull.BucketCount = 2 ∧
    ¬ overfull.Size ≤ overfull.BucketCount :=
  have he : runOps 2 (id : Nat → Nat) [.insert 1, .erase 7, .insert 2, .insert 3]
      (UnorderedSet.sized 1) = .ok overfull := by decide
  ⟨by decide, by decide, reachable_runOps id 2 _ _ _ (Reachable.sized 1) he,
    by decide, by decide, by decide⟩

/-- C10. Growth policy of `Insert`, sizes being unbounded naturals: on a consistent set with
`B` buckets and a key `k` that `Find` does not find, `Insert(k)` returns and leaves the bucket
count at `B` when `Size() < B` and makes it `max(1, 2*B)` when `Size() = B`. And for any hash
function `g`: a set constructed with 4 buckets has `Size()` 4, `BucketCount()` 4 and load
factor 1 after `Insert` of 1, 2, 3, 4, and `Size()` 5, `BucketCount()` 8 and load factor 5/8
after `Insert` of 5. -/
theorem insert_growth_policy (h : K → Nat) (s : UnorderedSet K) (k : K) (fuel : Nat)
    (g : Nat → Nat) (hc : Consistent h s) (hk : s.Find h k = .ok false) (hfuel : 1 ≤ fuel) :
    (∃ s1, s.Insert fuel h k = .ok s1 ∧
      (s.Size < s.BucketCount → s1.BucketCount = s.BucketCount) ∧
      (s.Size = s.BucketCount → s1.BucketCount = max 1 (2 * s.BucketCount))) ∧
    (∃ s4 s5, runOps fuel g [.insert 1, .insert 2, .insert 3, .insert 4]
          (UnorderedSet.sized 4) = .ok s4 ∧
      s4.Size = 4 ∧ s4.BucketCount = 4 ∧ s4.LoadFactor = some 1 ∧
      s4.Insert fuel g 5 = .ok s5 ∧
      s5.Size = 5 ∧ s5.BucketCount = 8 ∧ s5.LoadFactor = some (5 / 8)) := by
  obtain ⟨f, rfl⟩ : ∃ f, fuel = f + 1 := ⟨fuel - 1, by omega⟩
  constructor
  · have hmem : k ∉ s.elements := by
      rw [find_of_consistent h k s hc] at hk
      simpa using hk
    obtain ⟨s1, e1, _, _, _, b1⟩ := insert_fresh h f k s hc hmem
    refine ⟨s1, e1, ?_, ?_⟩
    · intro hlt
      simp only [UnorderedSet.Size, UnorderedSet.BucketCount] at hlt ⊢
      rw [b1, if_pos (by omega)]
    · intro heq
      simp only [UnorderedSet.Size, UnorderedSet.BucketCount] at heq ⊢
      rw [b1, if_neg (by omega), Nat.mul_comm]
  · have c0 := sized_consistent g 4
    have m0 := sized_elements (K := Nat) 4
    have z0 : (UnorderedSet.sized 4 : UnorderedSet Nat).size_ = 0 := rfl
    have b0 : (UnorderedSet.sized 4 : UnorderedSet Nat).buckets_.length = 4 := by
      simp [UnorderedSet.sized]
    obtain ⟨t1, e1, c1, m1, z1, b1⟩ := insert_fresh g f 1 _ c0 (by simp [m0])
    rw [z0] at z1
    rw [z0, b0] at b1
    obtain ⟨t2, e2, c2, m2, z2, b2⟩ := insert_fresh g f 2 t1 c1 (by simp [m1, m0])
    rw [z1] at z2
    rw [z1, b1] at b2
    obtain ⟨t3, e3, c3, m3, z3, b3⟩ := insert_fresh g f 3 t2 c2 (by simp [m2, m1, m0])
    rw [z2] at z3
    rw [z2, b2] at b3
    obtain ⟨t4, e4, c4, m4, z4, b4⟩ := insert_fresh g f 4 t3 c3 (by simp [m3, m2, m1, m0])
    rw [z3] at z4
    rw [z3, b3] at b4
    obtain ⟨t5, e5, c5, m5, z5, b5⟩ :=
      insert_fresh g f 5 t4 c4 (by simp [m4, m3, m2, m1, m0])
    rw [z4] at z5
    rw [z4, b4] at b5
    simp only [Nat.reduceAdd, Nat.reduceLeDiff, if_true, if_false, Nat.reduceMul,
      Nat.le_refl] at b1 b2 b3 b4 b5 z1 z2 z3 z4 z5
    have b5' : t5.buckets_.length = 8 := by simpa using b5
    refine ⟨t4, t5, ?_, z4, b4, ?_, e5, z5, b5', ?_⟩
    · simp only [runOps, List.foldlM_cons, List.foldlM_nil, Op.apply, e1, e2, e3, e4,
        bind, Except.bind, pure, Except.pure]
    · simp [UnorderedSet.LoadFactor, UnorderedSet.Size, UnorderedSet.BucketCount, z4, b4]
    · simp [UnorderedSet.LoadFactor, UnorderedSet.Size, UnorderedSet.BucketCount, z5, b5']

theorem insert_growth_policy_witness :
    (Consistent (id : Nat → Nat) fullSingleton ∧ fullSingleton.Find id 2 = .ok false) ∧
    ((∃ s1, fullSingleton.Insert 1 id 2 = .ok s1 ∧
      (fullSingleton.Size < fullSingleton.BucketCount →
        s1.BucketCount = fullSingleton.BucketCount) ∧
      (fullSingleton.Size = fullSingleton.BucketCount →
        s1.BucketCount = max 1 (2 * fullSingleton.BucketCount))) ∧
    (∃ s4 s5, runOps 1 (fun x => 4 * x) [.insert 1, .insert 2, .insert 3, .insert 4]
          (UnorderedSet.sized 4) = .ok s4 ∧
      s4.Size = 4 ∧ s4.BucketCount = 4 ∧ s4.LoadFactor = some 1 ∧
      s4.Insert 1 (fun x => 4 * x) 5 = .ok s5 ∧
      s5.Size = 5 ∧ s5.BucketCount = 8 ∧ s5.LoadFactor = some (5 / 8))) :=
  ⟨⟨by decide, by decide⟩,
    insert_growth_policy id fullSingleton 2 1 (fun x => 4 * x) (by decide) (by decide)
      (by decide)⟩

/-- C11. No bucket lookup on a zero-bucket array: on every reachable set, with any recursion
budget of at least 2, `Find(k)`, `Insert(k)`, `Erase(k)`, `Rehash(n)` and `Reserve(n)` all
return a value, so that none of them (nor any call they make) evaluates
`hash(k) mod BucketCount()` with `BucketCount() = 0` (`Fault.divByZero`) or indexes a chain
outside `0..BucketCount()-1` (`Fault.outOfRange`). -/
theorem no_fault_on_reachable (h : K → Nat) (s : UnorderedSet K) (k : K) (n fuel : Nat)
    (hr : Reachable fuel h s) (hfuel : 2 ≤ fuel) :
    (∃ b, s.Find h k = .ok b) ∧ (∃ s1, s.Insert fuel h k = .ok s1) ∧
    (∃ s1, s.Erase h k = .ok s1) ∧ (∃ s1, UnorderedSet.Rehash h fuel n s = .ok s1) ∧
    (∃ s1, s.Reserve fuel h n = .ok s1) := by
  obtain ⟨f, rfl⟩ : ∃ f, fuel = f + 2 := ⟨fuel - 2, by omega⟩
  have hI := reachable_has_bucket h f s hr
  refine ⟨find_returns h k s hI, ?_, ?_, ?_, ?_⟩
  · obtain ⟨s1, e1, _⟩ := apply_returns h f (.insert k) s hI
    exact ⟨s1, e1⟩
  · obtain ⟨s1, e1, _⟩ := apply_returns h f (.erase k) s hI
    exact ⟨s1, e1⟩
  · obtain ⟨s1, e1, _⟩ := apply_returns h f (.rehash n) s hI
    exact ⟨s1, e1⟩
  · obtain ⟨s1, e1, _⟩ := apply_returns h f (.reserve n) s hI
    exact ⟨s1, e1⟩

theorem no_fault_on_reachable_witness :
    Reachable 2 (id : Nat → Nat) storedTwice ∧
    ((∃ b, storedTwice.Find id 5 = .ok b) ∧ (∃ s1, storedTwice.Insert 2 id 5 = .ok s1) ∧
    (∃ s1, storedTwice.Erase id 5 = .ok s1) ∧
    (∃ s1, UnorderedSet.Rehash id 2 0 storedTwice = .ok s1) ∧
    (∃ s1, storedTwice.Reserve 2 id 0 = .ok s1)) :=
  have hr : Reachable 2 (id : Nat → Nat) storedTwice :=
    Reachable.step (.insert 1) { buckets_ := [[], [1], [], []], size_ := 0 } storedTwice
      (Reachable.step (.erase 2) { buckets_ := [[], [1], [], []], size_ := 1 } _
        (Reachable.step (.insert 1) (UnorderedSet.sized 4) _ (Reachable.sized 4) (by decide))
        (by decide))
      (by decide)
  ⟨hr, no_fault_on_reachable id storedTwice 5 0 2 hr (by decide)⟩

/-- C13. `Rehash` silently ignores an unproductive target: on every set state, for every `n`
with `n = BucketCount()` or `Size() > n`, `Rehash(n)` returns the state unchanged (every
chain, `Size()` and `BucketCount()`). -/
theorem rehash_ignores_unproductive (h : K → Nat) (s : UnorderedSet K) (n fuel : Nat)
    (hn : n = s.BucketCount ∨ s.Size > n) (hfuel : 1 ≤ fuel) :
    UnorderedSet.Rehash h fuel n s = .ok s := by
  obtain ⟨f, rfl⟩ : ∃ f, fuel = f + 1 := ⟨fuel - 1, by omega⟩
  exact rehash_ignored h f n s hn

theorem rehash_ignores_unproductive_witness :
    (1 = twoOfFour.BucketCount ∨ twoOfFour.Size > 1) ∧
    UnorderedSet.Rehash (id : Nat → Nat) 1 1 twoOfFour = .ok twoOfFour :=
  ⟨by decide, rehash_ignores_unproductive id twoOfFour 1 1 (by decide) (by decide)⟩

/-- C14. `Reserve` grows to at least the requested bucket count: on a consistent set, for
every `n`, `Reserve(n)` returns, afterwards `BucketCount() ≥ n`, `Size()` is as before and
`Find(k)` is as before for every key `k`; and when `n ≤ BucketCount()` beforehand the whole
state is unchanged. -/
theorem reserve_grows (h : K → Nat) (s : UnorderedSet K) (n fuel : Nat)
    (hc : Consistent h s) (hfuel : 1 ≤ fuel) :
    ∃ s1, s.Reserve fuel h n = .ok s1 ∧ n ≤ s1.BucketCount ∧ s1.Size = s.Size ∧
      (∀ k, s1.Find h k = s.Find h k) ∧ (n ≤ s.BucketCount → s1 = s) := by
  obtain ⟨f, rfl⟩ : ∃ f, fuel = f + 1 := ⟨fuel - 1, by omega⟩
  by_cases hn : n ≤ s.BucketCount
  · exact ⟨s, by simp [UnorderedSet.Reserve, hn], hn, rfl, fun _ => rfl, fun _ => rfl⟩
  · have hle : s.size_ ≤ s.buckets_.length := hc.2.2.2
    simp only [UnorderedSet.BucketCount] at hn
    obtain ⟨s1, e1, c1, b1, m1, z1⟩ :=
      rehash_consistent h f n s hc (by omega) (by omega)
    refine ⟨s1, by simpa [UnorderedSet.Reserve, UnorderedSet.BucketCount, hn] using e1,
      by simp [UnorderedSet.BucketCount, b1], z1, ?_, ?_⟩
    · intro k
      rw [find_of_consistent h k s1 c1, find_of_consistent h k s hc]
      congr 1
      simp [m1]
    · intro hx
      simp only [UnorderedSet.BucketCount] at hx
      omega

theorem reserve_grows_witness :
    Consistent (id : Nat → Nat) twoOfFour ∧
    ∃ s1, twoOfFour.Reserve 1 id 6 = .ok s1 ∧ 6 ≤ s1.BucketCount ∧
      s1.Size = twoOfFour.Size ∧ (∀ k, s1.Find id k = twoOfFour.Find id k) ∧
      (6 ≤ twoOfFour.BucketCount → s1 = twoOfFour) :=
  ⟨by decide, reserve_grows id twoOfFour 6 1 (by decide) (by decide)⟩

/-- C15. `Clear` resets to the default state and is idempotent: on every set state, after
`Clear()` `Size()` is 0, `BucketCount()` is 0 and `Find(k)` is false for every key `k`;
`Clear()` applied twice gives the state of `Clear()` applied once, which is the
default-constructed set. -/
theorem clear_resets (h : K → Nat) (s : UnorderedSet K) (k : K) :
    s.Clear.Size = 0 ∧ s.Clear.BucketCount = 0 ∧ s.Clear.Find h k = .ok false ∧
    s.Clear.Clear = s.Clear ∧ s.Clear = UnorderedSet.default := by
  refine ⟨rfl, rfl, ?_, rfl, rfl⟩
  exact find_of_size_zero h k _ rfl

/-- C16. `Erase` on an empty set is a no-op: on every set with `Size() = 0`, with or without
buckets, `Erase(k)` returns the state unchanged for every key and every hash function;
`Size()` stays 0, and with zero buckets the call still returns, where any evaluation of
`hash(k) mod BucketCount()` would be `Fault.divByZero`. -/
theorem erase_empty_noop (h : K → Nat) (s : UnorderedSet K) (k : K) (hs : s.Size = 0) :
    s.Erase h k = .ok s ∧ s.Size = 0 ∧
    (s.BucketCount = 0 → s.Bucket h k = .error Fault.divByZero) := by
  refine ⟨erase_of_size_zero h k s hs, hs, ?_⟩
  intro hb
  simp only [UnorderedSet.BucketCount] at hb
  simp [UnorderedSet.Bucket, hb]

theorem erase_empty_noop_witness :
    (UnorderedSet.default : UnorderedSet Nat).Size = 0 ∧
    ((UnorderedSet.default : UnorderedSet Nat).Erase id 3 = .ok UnorderedSet.default ∧
      (UnorderedSet.default : UnorderedSet Nat).Size = 0 ∧
      ((UnorderedSet.default : UnorderedSet Nat).BucketCount = 0 →
        (UnorderedSet.default : UnorderedSet Nat).Bucket id 3 = .error Fault.divByZero)) :=
  ⟨rfl, erase_empty_noop id UnorderedSet.default 3 rfl⟩

/-- C17, as stated, fails: on the reachable set `UnorderedSet(8)` the call `Rehash(4)` is
accepted (4 is not the current count and `Size() = 0 ≤ 4`) and leaves 4 buckets. -/
theorem rehash_lowers_bucket_count :
    Reachable 2 (id : Nat → Nat) (UnorderedSet.sized 8) ∧
    UnorderedSet.Rehash (id : Nat → Nat) 2 4 (UnorderedSet.sized 8)
      = .ok (UnorderedSet.sized 4) ∧
    ¬ (UnorderedSet.sized 8 : UnorderedSet Nat).BucketCount
        ≤ (UnorderedSet.sized 4 : UnorderedSet Nat).BucketCount :=
  ⟨Reachable.sized 8, by decide, by decide⟩

/-- C17, amended. On every reachable set each single call returns, and `BucketCount()` after
`Insert(k)` and after `Reserve(n)` is at least `BucketCount()` before, after `Erase(k)` it is
the same, and after `Rehash(n)` it is at least the smaller of `n` and `BucketCount()` before
(so `Rehash(n)` does not lower it when `n ≥ BucketCount()`). -/
theorem bucket_count_floor (h : K → Nat) (s : UnorderedSet K) (k : K) (n fuel : Nat)
    (hr : Reachable fuel h s) (hfuel : 2 ≤ fuel) :
    (∃ s1, s.Insert fuel h k = .ok s1 ∧ s.BucketCount ≤ s1.BucketCount) ∧
    (∃ s1, s.Erase h k = .ok s1 ∧ s1.BucketCount = s.BucketCount) ∧
    (∃ s1, s.Reserve fuel h n = .ok s1 ∧ s.BucketCount ≤ s1.BucketCount) ∧
    (∃ s1, UnorderedSet.Rehash h fuel n s = .ok s1 ∧
      min n s.BucketCount ≤ s1.BucketCount) := by
  obtain ⟨f, rfl⟩ : ∃ f, fuel = f + 2 := ⟨fuel - 2, by omega⟩
  have hI := reachable_has_bucket h f s hr
  have hp := reachable_placed h f s hr
  refine ⟨?_, ?_, ?_, ?_⟩
  · obtain ⟨s1, e1, _, b1⟩ := insert_placed h f k s hI hp
    exact ⟨s1, e1, b1⟩
  · obtain ⟨s1, e1, _, b1⟩ := erase_placed h k s hI hp
    exact ⟨s1, e1, b1⟩
  · obtain ⟨s1, e1, _, b1⟩ := reserve_placed h f n s hp
    exact ⟨s1, e1, b1⟩
  · obtain ⟨s1, e1, _, b1⟩ := rehash_placed h f n s hp
    exact ⟨s1, e1, b1⟩

theorem bucket_count_floor_witness :
    Reachable 2 (id : Nat → Nat) (UnorderedSet.sized 8) ∧
    ((∃ s1, (UnorderedSet.sized 8).Insert 2 id 3 = .ok s1 ∧
      (UnorderedSet.sized 8 : UnorderedSet Nat).BucketCount ≤ s1.BucketCount) ∧
    (∃ s1, (UnorderedSet.sized 8).Erase id 3 = .ok s1 ∧
      s1.BucketCount = (UnorderedSet.sized 8 : UnorderedSet Nat).BucketCount) ∧
    (∃ s1, (UnorderedSet.sized 8).Reserve 2 id 4 = .ok s1 ∧
      (UnorderedSet.sized 8 : UnorderedSet Nat).BucketCount ≤ s1.BucketCount) ∧
    (∃ s1, UnorderedSet.Rehash id 2 4 (UnorderedSet.sized 8) = .ok s1 ∧
      min 4 (UnorderedSet.sized 8 : UnorderedSet Nat).BucketCount ≤ s1.BucketCount)) :=
  ⟨Reachable.sized 8,
    bucket_count_floor id (UnorderedSet.sized 8) 3 4 2 (Reachable.sized 8) (by decide)⟩

/-- C18. Placement invariant: on every set reachable by `Insert`, `Erase` (of present or
absent keys), `Rehash`, `Reserve` and `Clear` calls, every element `x` stored in chain `i`
has `i = hash(x) mod BucketCount()`; a set with zero buckets stores no elements; and every
further call, each `Rehash(n)` among them, returns a set in which every element is again in
the chain of its hash for the new bucket count. -/
theorem placement_invariant (h : K → Nat) (s : UnorderedSet K) (fuel : Nat)
    (hr : Reachable fuel h s) (hfuel : 2 ≤ fuel) :
    Placed h s ∧ (s.BucketCount = 0 → s.elements = []) ∧
    ∀ op : Op K, ∃ s1, op.apply fuel h s = .ok s1 ∧ Placed h s1 := by
  obtain ⟨f, rfl⟩ : ∃ f, fuel = f + 2 := ⟨fuel - 2, by omega⟩
  have hp := reachable_placed h f s hr
  refine ⟨hp, ?_, fun op => apply_placed h f op s (reachable_has_bucket h f s hr) hp⟩
  intro hb
  simp only [UnorderedSet.BucketCount] at hb
  simp [UnorderedSet.elements, List.length_eq_zero.mp hb]

theorem placement_invariant_witness :
    Reachable 2 (id : Nat → Nat) fullSingleton ∧
    (Placed id fullSingleton ∧ (fullSingleton.BucketCount = 0 → fullSingleton.elements = []) ∧
      ∀ op : Op Nat, ∃ s1, op.apply 2 id fullSingleton = .ok s1 ∧ Placed id s1) :=
  have hr : Reachable 2 (id : Nat → Nat) fullSingleton :=
    Reachable.step (.insert 1) (UnorderedSet.sized 1) fullSingleton (Reachable.sized 1)
      (by decide)
  ⟨hr, placement_invariant id fullSingleton 2 hr (by decide)⟩

/-- C19. An accepted `Rehash` rebuilds a consistent set from whatever the chains hold: on
every set state (also one whose `Size()` is below the number of stored elements or whose
chains hold a key twice), for `n ≠ BucketCount()` with `Size() ≤ n`, `Rehash(n)` returns with
any recursion budget of at least 2, the result is consistent, has `BucketCount() ≥ n`, and
`Find(k)` is true in it exactly for the keys `k` that occurred in some chain before. -/
theorem rehash_rebuilds_consistent (h : K → Nat) (s : UnorderedSet K) (n fuel : Nat)
    (hn : n ≠ s.BucketCount) (hsz : s.Size ≤ n) (hfuel : 2 ≤ fuel) :
    ∃ s1, UnorderedSet.Rehash h fuel n s = .ok s1 ∧ Consistent h s1 ∧ n ≤ s1.BucketCount ∧
      ∀ k, ∃ b, s1.Find h k = .ok b ∧ (b = true ↔ ∃ c ∈ s.buckets_, k ∈ c) := by
  obtain ⟨f, rfl⟩ : ∃ f, fuel = f + 2 := ⟨fuel - 2, by omega⟩
  obtain ⟨s1, e1, c1, b1, m1⟩ := rehash_rebuilds h f n s hn hsz
  refine ⟨s1, e1, c1, b1, fun k => ⟨decide (k ∈ s1.elements), find_of_consistent h k s1 c1, ?_⟩⟩
  rw [decide_eq_true_eq, m1]
  exact List.mem_flatten

theorem rehash_rebuilds_consistent_witness :
    (2 ≠ storedTwiceAndTwo.BucketCount ∧ storedTwiceAndTwo.Size ≤ 2) ∧
    ∃ s1, UnorderedSet.Rehash (id : Nat → Nat) 2 2 storedTwiceAndTwo = .ok s1 ∧
      Consistent id s1 ∧ 2 ≤ s1.BucketCount ∧
      ∀ k, ∃ b, s1.Find id k = .ok b ∧ (b = true ↔ ∃ c ∈ storedTwiceAndTwo.buckets_, k ∈ c) :=
  ⟨⟨by decide, by decide⟩,
    rehash_rebuilds_consistent id storedTwiceAndTwo 2 2 (by decide) (by decide) (by decide)⟩

/-- C12. Range construction collapses duplicates: for every finite sequence `xs` and every
hash function, with any recursion budget of at least 1, the set constructed from the range
`xs` exists, its `Size()` is the number of distinct values in `xs`, `Find(k)` is true in it
iff `k` occurs in `xs`, and it is the state reached from a default-constructed set by
`Insert` of each element of `xs` in order. For any hash function `g` the sequence
`[3,1,4,1,5,9,2,6,5,3]` gives `Size() = 7`. -/
theorem range_construction_collapses (h : K → Nat) (xs : List K) (g : Nat → Nat) (fuel : Nat)
    (hfuel : 1 ≤ fuel) :
    (∃ s, UnorderedSet.ofRange fuel h xs = .ok s ∧ s.Size = xs.dedup.length ∧
      (∀ k, ∃ b, s.Find h k = .ok b ∧ (b = true ↔ k ∈ xs)) ∧
      runOps fuel h (xs.map Op.insert) UnorderedSet.default = .ok s) ∧
    (∃ s, UnorderedSet.ofRange fuel g [3, 1, 4, 1, 5, 9, 2, 6, 5, 3] = .ok s ∧ s.Size = 7) := by
  obtain ⟨f, rfl⟩ : ∃ f, fuel = f + 1 := ⟨fuel - 1, by omega⟩
  have hsize : ∀ (K1 : Type) [DecidableEq K1] (h1 : K1 → Nat) (l : List K1)
      (s : UnorderedSet K1), Consistent h1 s → (∀ j, j ∈ s.elements ↔ j ∈ l) →
      s.Size = l.dedup.length := by
    intro K1 _ h1 l s c1 m1
    have hperm : s.elements.Perm l.dedup :=
      (List.perm_ext_iff_of_nodup c1.2.1 (List.nodup_dedup l)).mpr
        (fun j => by rw [m1, List.mem_dedup])
    rw [← hperm.length_eq]
    exact size_eq_of_consistent h1 s c1
  constructor
  · obtain ⟨s, e1, c1, m1⟩ := ofRange_consistent h f xs
    refine ⟨s, e1, hsize K h xs s c1 m1, fun k => ?_, ?_⟩
    · refine ⟨decide (k ∈ s.elements), find_of_consistent h k s c1, ?_⟩
      rw [decide_eq_true_eq, m1]
    · rw [runOps_insert]
      exact e1
  · obtain ⟨s, e1, c1, m1⟩ := ofRange_consistent g f [3, 1, 4, 1, 5, 9, 2, 6, 5, 3]
    refine ⟨s, e1, ?_⟩
    rw [hsize Nat g _ s c1 m1]
    decide

theorem range_construction_collapses_witness :
    (∃ s, UnorderedSet.ofRange 1 (id : Nat → Nat) [2, 7, 2] = .ok s ∧
      s.Size = [2, 7, 2].dedup.length ∧
      (∀ k, ∃ b, s.Find id k = .ok b ∧ (b = true ↔ k ∈ [2, 7, 2])) ∧
      runOps 1 id ([2, 7, 2].map Op.insert) UnorderedSet.default = .ok s) ∧
    (∃ s, UnorderedSet.ofRange 1 (fun x => x * x) [3, 1, 4, 1, 5, 9, 2, 6, 5, 3] = .ok s ∧
      s.Size = 7) :=
  range_construction_collapses id [2, 7, 2] (fun x => x * x) 1 (by decide)

/-- C20. Bucket counts of a set grown from empty are powers of two (sizes being unbounded
naturals): for every hash function and every sequence `xs` of `n ≥ 1` pairwise distinct
keys, inserting them one by one into a default-constructed set returns a set whose
`BucketCount()` is the least power of two that is `≥ n`; and the `Insert` of the key at
position `i`, made on the set that holds the first `i` keys (`Size() = i`), passes the
load-factor test that calls `Rehash`, and changes the bucket count, exactly when `i` is 0 or
a power of two. -/
theorem growth_from_empty (h : K → Nat) (xs : List K) (fuel : Nat)
    (hnd : xs.Nodup) (hn : 1 ≤ xs.length) (hfuel : 1 ≤ fuel) :
    (∃ s e, UnorderedSet.ofRange fuel h xs = .ok s ∧ s.BucketCount = 2 ^ e ∧
      xs.length ≤ 2 ^ e ∧ ∀ e1, xs.length ≤ 2 ^ e1 → 2 ^ e ≤ 2 ^ e1) ∧
    (∀ i k, xs[i]? = some k →
      ∃ si si1, UnorderedSet.ofRange fuel h (xs.take i) = .ok si ∧ si.Size = i ∧
        si.Insert fuel h k = .ok si1 ∧
        UnorderedSet.ofRange fuel h (xs.take (i + 1)) = .ok si1 ∧
        (si.Size + 1 > si.BucketCount * kUltimateLoadFactor ↔ (i = 0 ∨ ∃ e, i = 2 ^ e)) ∧
        (si1.BucketCount ≠ si.BucketCount ↔ (i = 0 ∨ ∃ e, i = 2 ^ e))) := by
  obtain ⟨f, rfl⟩ : ∃ f, fuel = f + 1 := ⟨fuel - 1, by omega⟩
  constructor
  · obtain ⟨s, e1, _, _, _, g1⟩ := ofRange_nodup h f xs hnd
    obtain ⟨e, b1, h1, h2⟩ := grownCount_least _ _ g1 hn
    exact ⟨s, e, e1, b1, h1, h2⟩
  · intro i k hk
    have hi : i < xs.length := (List.getElem?_eq_some_iff.mp hk).1
    have htake : xs.take (i + 1) = xs.take i ++ [k] := by
      rw [List.take_succ, hk]
      rfl
    have hnd1 : (xs.take (i + 1)).Nodup := (List.take_sublist _ _).nodup hnd
    rw [htake] at hnd1
    have hk1 : k ∉ xs.take i := by
      intro hx
      exact (List.nodup_append.mp hnd1).2.2 hx (List.mem_singleton_self k)
    obtain ⟨si, e1, c1, m1, z1, g1⟩ := ofRange_nodup h f (xs.take i) (List.nodup_append.mp hnd1).1
    have hlen : (xs.take i).length = i := by
      rw [List.length_take]
      omega
    rw [hlen] at z1 g1
    obtain ⟨si1, e2, _, _, _, b2⟩ := insert_fresh h f k si c1 (by rwa [m1])
    have htrig := grownCount_trigger _ _ g1
    refine ⟨si, si1, e1, z1, e2, ?_, ?_, ?_⟩
    · rw [htake, ofRange_append h (f + 1) _ k si e1]
      exact e2
    · simp only [UnorderedSet.Size, UnorderedSet.BucketCount, kUltimateLoadFactor,
        Nat.mul_one, gt_iff_lt, z1]
      exact htrig
    · rw [← htrig]
      simp only [UnorderedSet.BucketCount, b2, z1]
      split <;> omega

theorem growth_from_empty_witness :
    (([10, 20, 30] : List Nat).Nodup ∧ 1 ≤ ([10, 20, 30] : List Nat).length) ∧
    ((∃ s e, UnorderedSet.ofRange 1 (id : Nat → Nat) [10, 20, 30] = .ok s ∧
      s.BucketCount = 2 ^ e ∧ ([10, 20, 30] : List Nat).length ≤ 2 ^ e ∧
      ∀ e1, ([10, 20, 30] : List Nat).length ≤ 2 ^ e1 → 2 ^ e ≤ 2 ^ e1) ∧
    (∀ i k, ([10, 20, 30] : List Nat)[i]? = some k →
      ∃ si si1, UnorderedSet.ofRange 1 (id : Nat → Nat) (([10, 20, 30] : List Nat).take i)
          = .ok si ∧ si.Size = i ∧
        si.Insert 1 id k = .ok si1 ∧
        UnorderedSet.ofRange 1 id (([10, 20, 30] : List Nat).take (i + 1)) = .ok si1 ∧
        (si.Size + 1 > si.BucketCount * kUltimateLoadFactor ↔ (i = 0 ∨ ∃ e, i = 2 ^ e)) ∧
        (si1.BucketCount ≠ si.BucketCount ↔ (i = 0 ∨ ∃ e, i = 2 ^ e)))) :=
  ⟨⟨by decide, by decide⟩,
    growth_from_empty id [10, 20, 30] 1 (by decide) (by decide) (by decide)⟩

end Claims

end UnorderedSetModel
